import Mathlib

/-!
Verification of the KobaFin core subsystems against their natural-language
specification.

The development shallowly embeds the relevant TypeScript source:
* the policy governance clamp (`applyPolicyClamp` and its helpers),
* the escrow instruction codec (`parseEscrowInstructionData`, the
  instruction-data builder inside `buildEscrowTx`),
* the transaction verifier implemented by the `/v1/deposits/sol/confirm`
  and `/v1/withdrawals/sol/confirm` routes (`matchEscrowInstruction` and
  the surrounding checks),
* the per-pool governance loop of the CRE workflow (`run`).

JavaScript numbers are modelled as exact rationals extended with the three
non-finite values (`NaN`, `Infinity`, `-Infinity`); the code under scrutiny
only ever manipulates non-finite values through `Number.isFinite` guards and
`Math.max(0, _)`, after which every quantity is an ordinary (mathematically
exact) number, so the rational model is faithful to the branching structure
of the source.  Machine-level `bigint`/`u64` quantities are modelled as `Nat`
with explicit byte decompositions.
-/

/-- A JavaScript `number` as used by the policy clamp: either a finite value
(modelled exactly as a rational) or one of the non-finite values. -/
inductive JsNum where
  | fin (q : ℚ)
  | nan
  | inf
  | ninf
  deriving DecidableEq, Repr

namespace JsNum

/-- `Number.isFinite`. -/
def isFinite : JsNum → Bool
  | .fin _ => true
  | _ => false

/-- IEEE-754 addition restricted to the values reachable here: finite values
add exactly; `NaN` is absorbing; infinities of opposite sign give `NaN`. -/
def add : JsNum → JsNum → JsNum
  | .nan, _ => .nan
  | _, .nan => .nan
  | .inf, .inf => .inf
  | .inf, .ninf => .nan
  | .ninf, .inf => .nan
  | .ninf, .ninf => .ninf
  | .inf, .fin _ => .inf
  | .ninf, .fin _ => .ninf
  | .fin _, .inf => .inf
  | .fin _, .ninf => .ninf
  | .fin a, .fin b => .fin (a + b)

/-- `Math.max(0, x)`: `NaN` propagates, `Infinity` stays, `-Infinity`
is replaced by `0`, finite values are floored at `0`. -/
def max0 : JsNum → JsNum
  | .fin q => .fin (max 0 q)
  | .nan => .nan
  | .inf => .inf
  | .ninf => .fin 0

/-- The finite value carried by a `JsNum` (`0` for non-finite values; only
used in positions proved to be finite). -/
def finPart : JsNum → ℚ
  | .fin q => q
  | _ => 0

end JsNum

/-- `PodTier` from `policyClamp.ts`. -/
inductive PodTier where
  | LOW
  | MEDIUM
  | HIGH
  deriving DecidableEq, Repr

/-- `RiskState` from `policyClamp.ts`. -/
inductive RiskState where
  | NORMAL
  | CAUTION
  | RISK_OFF
  deriving DecidableEq, Repr

/-- `AllocationPct`: four percentage weights.  After `normalizeTo100` every
weight the source manipulates is a genuine finite number, so the fields are
exact rationals. -/
structure AllocationPct where
  usdc : ℚ
  btc : ℚ
  eth : ℚ
  sol : ℚ
  deriving DecidableEq, Repr

/-- `AllocationBps`: four basis-point integers. -/
structure AllocationBps where
  usdc : ℤ
  btc : ℤ
  eth : ℤ
  sol : ℤ
  deriving DecidableEq, Repr

/-- `Bounds` from `policyClamp.ts`. -/
structure Bounds where
  min : ℚ
  max : ℚ
  deriving DecidableEq, Repr

/-- `PodRules` from `policyClamp.ts`. -/
structure PodRules where
  luloFloorPct : ℚ
  btc : Bounds
  eth : Bounds
  sol : Bounds
  deriving DecidableEq, Repr

/-- The `POD_RULES` table. -/
def POD_RULES : PodTier → PodRules
  | .LOW => { luloFloorPct := 70, btc := ⟨0, 20⟩, eth := ⟨0, 15⟩, sol := ⟨0, 15⟩ }
  | .MEDIUM => { luloFloorPct := 50, btc := ⟨0, 30⟩, eth := ⟨0, 25⟩, sol := ⟨0, 25⟩ }
  | .HIGH => { luloFloorPct := 30, btc := ⟨0, 40⟩, eth := ⟨0, 30⟩, sol := ⟨0, 40⟩ }

/-- `clamp(value, min, max)` on a value that is already known finite (the
`Number.isFinite` guard of the source is vacuous then). -/
def clampQ (value lo hi : ℚ) : ℚ :=
  if value < lo then lo
  else if value > hi then hi
  else value

/-- `clamp(value, min, max)` on a possibly non-finite value: the source
returns `min` when `Number.isFinite(value)` fails. -/
def clampJs (value : JsNum) (lo hi : ℚ) : ℚ :=
  match value with
  | .fin q => clampQ q lo hi
  | _ => lo

/-- `normalizeTo100`: sums the four weights with JavaScript addition; if the
sum is non-finite or `≤ 0` it falls back to 100% stable, otherwise it scales
every weight by `100 / sum`.  (When the sum is finite every addend is finite
— `jsAdd_fin` below — so reading the scaled weights through `finPart` is
exact.) -/
def normalizeTo100 (u b e s : JsNum) : AllocationPct :=
  match JsNum.add (JsNum.add (JsNum.add u b) e) s with
  | .fin sum =>
      if sum ≤ 0 then ⟨100, 0, 0, 0⟩
      else
        ⟨u.finPart * (100 / sum), b.finPart * (100 / sum),
         e.finPart * (100 / sum), s.finPart * (100 / sum)⟩
  | _ => ⟨100, 0, 0, 0⟩

/-- `boundCrypto`: clamps the three volatile weights to the pod bounds and
appends an audit note when anything changed. -/
def boundCrypto (w : AllocationPct) (rules : PodRules) (notes : List String) :
    AllocationPct × List String :=
  let btc := clampQ w.btc rules.btc.min rules.btc.max
  let eth := clampQ w.eth rules.eth.min rules.eth.max
  let sol := clampQ w.sol rules.sol.min rules.sol.max
  let notes' :=
    if btc ≠ w.btc ∨ eth ≠ w.eth ∨ sol ≠ w.sol then
      notes ++ ["Clamped BTC/ETH/SOL to pod bounds."]
    else notes
  (⟨w.usdc, btc, eth, sol⟩, notes')

/-- `recomputeUsdcFromCrypto`: the stable weight absorbs the remainder. -/
def recomputeUsdcFromCrypto (w : AllocationPct) : AllocationPct :=
  let btc := max 0 w.btc
  let eth := max 0 w.eth
  let sol := max 0 w.sol
  ⟨max 0 (100 - (btc + eth + sol)), btc, eth, sol⟩

/-- `enforceUsdcMinimum`: pins the stable weight to the floor and rescales
the volatile weights into the remaining budget. -/
def enforceUsdcMinimum (w : AllocationPct) (minUsdc : ℚ) (notes : List String) :
    AllocationPct × List String :=
  if minUsdc ≤ w.usdc then (w, notes)
  else
    let cryptoSum := max 0 w.btc + max 0 w.eth + max 0 w.sol
    if cryptoSum ≤ 0 then (⟨minUsdc, 0, 0, 0⟩, notes)
    else
      let targetCryptoTotal := max 0 (100 - minUsdc)
      let scale := targetCryptoTotal / cryptoSum
      (⟨minUsdc, max 0 w.btc * scale, max 0 w.eth * scale, max 0 w.sol * scale⟩,
       notes ++ ["Raised USDC allocation to satisfy mandatory Lulo floor."])

/-- The four allocation keys, in the source's fixed field order. -/
inductive AllocKey where
  | usdc
  | btc
  | eth
  | sol
  deriving DecidableEq, Repr

/-- `floor[key] += 1`. -/
def bumpBps (b : AllocationBps) : AllocKey → AllocationBps
  | .usdc => { b with usdc := b.usdc + 1 }
  | .btc => { b with btc := b.btc + 1 }
  | .eth => { b with eth := b.eth + 1 }
  | .sol => { b with sol := b.sol + 1 }

/-- The `while (remaining > 0)` loop of `toBpsExact10000`: hands out one
basis point per iteration to `ranked[i % ranked.length]`. -/
def distLoop (ranked : List AllocKey) : AllocationBps → Nat → Nat → AllocationBps
  | b, 0, _ => b
  | b, Nat.succ r, i =>
      distLoop ranked (bumpBps b (ranked.getD (i % ranked.length) .usdc)) r (i + 1)

/-- `toBpsExact10000`: floor each weight in basis points, then distribute the
remaining points to the entries with the largest fractional part (descending,
stable order `usdc, btc, eth, sol`; `Array.prototype.sort` is stable and the
comparator `b.frac - a.frac` orders by descending fraction). -/
def toBpsExact10000 (w : AllocationPct) : AllocationBps :=
  let rawU := w.usdc * 100
  let rawB := w.btc * 100
  let rawE := w.eth * 100
  let rawS := w.sol * 100
  let base : AllocationBps := ⟨⌊rawU⌋, ⌊rawB⌋, ⌊rawE⌋, ⌊rawS⌋⟩
  let remaining : ℤ := 10000 - (base.usdc + base.btc + base.eth + base.sol)
  let ranked :=
    ([(AllocKey.usdc, rawU - (⌊rawU⌋ : ℚ)), (AllocKey.btc, rawB - (⌊rawB⌋ : ℚ)),
      (AllocKey.eth, rawE - (⌊rawE⌋ : ℚ)), (AllocKey.sol, rawS - (⌊rawS⌋ : ℚ))]).mergeSort
      (fun a b => decide (b.2 ≤ a.2))
  distLoop (ranked.map Prod.fst) base remaining.toNat 0

/-- `String.prototype.toUpperCase` modelled over the character list. -/
def jsToUpper (s : String) : String := ⟨s.data.map Char.toUpper⟩

/-- `String.prototype.trim` modelled over the character list: strip
whitespace from both ends. -/
def jsTrim (s : String) : String :=
  ⟨((s.data.dropWhile Char.isWhitespace).reverse.dropWhile Char.isWhitespace).reverse⟩

/-- `normalizeTier`: trim + upper-case, `MED`/`MEDIUM` accepted, anything
unrecognized falls back to `LOW`. -/
def normalizeTier (input : String) : PodTier :=
  let value := jsToUpper (jsTrim input)
  if value = "LOW" then .LOW
  else if value = "MED" ∨ value = "MEDIUM" then .MEDIUM
  else if value = "HIGH" then .HIGH
  else .LOW

/-- `normalizeRisk`: unrecognized or missing risk strings fall back to
`NORMAL`. -/
def normalizeRisk (input : Option String) : RiskState :=
  let value := jsToUpper (jsTrim (input.getD ""))
  if value = "CAUTION" then .CAUTION
  else if value = "RISK_OFF" then .RISK_OFF
  else .NORMAL

/-- `AgentProposal`: the untrusted advisory input.  `weightsPct` is a
`Partial<AllocationPct>` of JavaScript numbers, so each field is an optional
possibly-non-finite value; `podTier` and `riskState` are free-form strings. -/
structure AgentProposal where
  podId : String
  podTier : String
  weightsUsdc : Option JsNum
  weightsBtc : Option JsNum
  weightsEth : Option JsNum
  weightsSol : Option JsNum
  usdcInLuloPct : Option JsNum
  riskState : Option String
  reason : Option String

/-- `ClampedPolicy`: the output of the clamp. -/
structure ClampedPolicy where
  podId : String
  podTier : PodTier
  riskState : RiskState
  targetAllocationsPct : AllocationPct
  targetAllocationsBps : AllocationBps
  usdcInLuloPct : ℚ
  usdcInLuloBps : ℤ
  reason : String
  notes : List String

/-- `Math.round` on the (nonnegative, finite) values reaching it here:
round half away from zero, i.e. `⌊x + 1/2⌋`. -/
def jsRound (q : ℚ) : ℤ := ⌊q + 1 / 2⌋

/-- `Math.max(0, Number(input.weightsPct.x ?? 0))` applied to one optional
weight. -/
def sanitizeWeight (o : Option JsNum) : JsNum := (o.getD (.fin 0)).max0

/-- The bound/recompute/enforce sequence of `applyPolicyClamp` (source lines
203–213), factored out so the invariants of the final weights can be stated
about a named definition. -/
def clampWeights (rules : PodRules) (normalized : AllocationPct) :
    AllocationPct × List String :=
  let notes0 : List String := []
  let s1 := boundCrypto normalized rules notes0
  let w2 := recomputeUsdcFromCrypto s1.1
  let s3 := enforceUsdcMinimum w2 rules.luloFloorPct s1.2
  let s4 := boundCrypto s3.1 rules s3.2
  let w5 := recomputeUsdcFromCrypto s4.1
  if w5.usdc < rules.luloFloorPct then
    let s6 := enforceUsdcMinimum w5 rules.luloFloorPct s4.2
    let s7 := boundCrypto s6.1 rules s6.2
    (recomputeUsdcFromCrypto s7.1, s7.2)
  else (w5, s4.2)

/-- The `usdc_in_lulo` clamp chain of `applyPolicyClamp` (source lines
215–229), factored out: default to the stable weight, clamp into
`[floor, 100]`, cap at the stable weight, re-raise to the floor, re-cap. -/
def clampLulo (rules : PodRules) (weights : AllocationPct) (req : Option JsNum)
    (notes : List String) : ℚ × List String :=
  let usdcInLuloPctRaw : JsNum :=
    match req with
    | none => .fin weights.usdc
    | some v => v
  let lulo1 := clampJs usdcInLuloPctRaw rules.luloFloorPct 100
  let s9 :=
    if lulo1 > weights.usdc then
      (weights.usdc, notes ++ ["Adjusted usdc_in_lulo to not exceed total USDC allocation."])
    else (lulo1, notes)
  let s10 :=
    if s9.1 < rules.luloFloorPct then
      (rules.luloFloorPct, s9.2 ++ ["Raised usdc_in_lulo to mandatory pod floor."])
    else s9
  (if s10.1 > weights.usdc then weights.usdc else s10.1, s10.2)

/-- `applyPolicyClamp` from `policyClamp.ts`, line for line. -/
def applyPolicyClamp (input : AgentProposal) : ClampedPolicy :=
  let podTier := normalizeTier input.podTier
  let riskState := normalizeRisk input.riskState
  let rules := POD_RULES podTier
  let normalized := normalizeTo100
    (sanitizeWeight input.weightsUsdc) (sanitizeWeight input.weightsBtc)
    (sanitizeWeight input.weightsEth) (sanitizeWeight input.weightsSol)
  let s8 := clampWeights rules normalized
  let weights := s8.1
  let s11 := clampLulo rules weights input.usdcInLuloPct s8.2
  let usdcInLulo := s11.1
  let targetAllocationsBps := toBpsExact10000 weights
  let targetAllocationsPct : AllocationPct :=
    ⟨targetAllocationsBps.usdc / 100, targetAllocationsBps.btc / 100,
     targetAllocationsBps.eth / 100, targetAllocationsBps.sol / 100⟩
  let usdcInLuloBps := min targetAllocationsBps.usdc (max 0 (jsRound (usdcInLulo * 100)))
  { podId := input.podId
    podTier := podTier
    riskState := riskState
    targetAllocationsPct := targetAllocationsPct
    targetAllocationsBps := targetAllocationsBps
    usdcInLuloPct := (usdcInLuloBps : ℚ) / 100
    usdcInLuloBps := usdcInLuloBps
    reason :=
      match input.reason with
      | some r => if r = "" then "Policy-governed target derived from advisory agent output." else r
      | none => "Policy-governed target derived from advisory agent output."
    notes := s11.2 }

/-! ## Escrow instruction codec (`escrow-tx` library and `buildEscrowTx`) -/

/-- Little-endian byte decomposition: `k` bytes of `n`. -/
def toLEBytes : Nat → Nat → List Nat
  | 0, _ => []
  | k + 1, n => n % 256 :: toLEBytes k (n / 256)

/-- `u64le(n)`: `Buffer.writeBigUInt64LE` — eight little-endian bytes. -/
def u64le (n : Nat) : List Nat := toLEBytes 8 n

/-- Recompose a little-endian byte list into a number. -/
def fromLEBytes (l : List Nat) : Nat := l.foldr (fun b acc => b + 256 * acc) 0

/-- `decodeU64LE(data)`: `readBigUInt64LE(0)` reads exactly the first eight
bytes. -/
def decodeU64LE (data : List Nat) : Nat := fromLEBytes (data.take 8)

/-- The record returned by `parseEscrowInstructionData`. -/
structure ParsedEscrowIx where
  discriminator : List Nat
  potHash : List Nat
  lamports : Nat
  feeLamports : Option Nat
  deriving DecidableEq, Repr

/-- `parseEscrowInstructionData(raw)`: fails (`escrow_ix_data_too_short`) for
fewer than `8+32+8` bytes; the fee field is decoded only when at least
`8+32+8+8` bytes are present. -/
def parseEscrowInstructionData (raw : List Nat) : Option ParsedEscrowIx :=
  if raw.length < 8 + 32 + 8 then none
  else
    some
      { discriminator := raw.take 8
        potHash := (raw.drop 8).take 32
        lamports := decodeU64LE ((raw.drop 40).take 8)
        feeLamports :=
          if 8 + 32 + 8 + 8 ≤ raw.length then some (decodeU64LE ((raw.drop 48).take 8))
          else none }

/-- The escrow operations whose instruction data `buildEscrowTx` constructs. -/
inductive EscrowOp where
  | deposit (potHash : List Nat) (lamports : Nat)
  | withdraw (potHash : List Nat) (lamports : Nat)
  | withdrawWithFee (potHash : List Nat) (lamports : Nat) (fee : Nat)
  deriving DecidableEq, Repr

namespace EscrowOp

/-- The Anchor instruction name used for the discriminator. -/
def ixName : EscrowOp → String
  | .deposit _ _ => "deposit"
  | .withdraw _ _ => "withdraw"
  | .withdrawWithFee _ _ _ => "withdraw_with_fee"

def potHash : EscrowOp → List Nat
  | .deposit ph _ => ph
  | .withdraw ph _ => ph
  | .withdrawWithFee ph _ _ => ph

def lamports : EscrowOp → Nat
  | .deposit _ n => n
  | .withdraw _ n => n
  | .withdrawWithFee _ n _ => n

def fee : EscrowOp → Option Nat
  | .deposit _ _ => none
  | .withdraw _ _ => none
  | .withdrawWithFee _ _ f => some f

end EscrowOp

/-- The instruction data assembled by `buildEscrowTx`:
`anchorDiscriminator(name) ++ potHash ++ u64le(lamports) [++ u64le(fee)]`.
`anchorDiscriminator` itself is the first eight bytes of a SHA-256 digest; the
hash is abstracted as a function argument `discOf` (the codec never interprets
its value). -/
def encodeEscrowData (discOf : String → List Nat) : EscrowOp → List Nat
  | .deposit ph n => discOf "deposit" ++ ph ++ u64le n
  | .withdraw ph n => discOf "withdraw" ++ ph ++ u64le n
  | .withdrawWithFee ph n f => discOf "withdraw_with_fee" ++ ph ++ u64le n ++ u64le f

/-! ## Transaction verifier (`/v1/deposits/sol/confirm`, `/v1/withdrawals/sol/confirm`) -/

/-- One compiled instruction of a fetched transaction message.  `data` holds
the bytes after `decodeInstructionData` (the base58/base64 transport decode). -/
structure CompiledIx where
  programIdIndex : Nat
  accountKeyIndexes : List Nat
  data : List Nat
  deriving DecidableEq, Repr

/-- A transaction message: the static account keys (base58 strings) and the
compiled instructions. -/
structure TxMessage where
  accountKeys : List String
  instructions : List CompiledIx
  deriving DecidableEq, Repr

/-- A fetched confirmed transaction: `failed` models `tx.meta?.err` being
non-null. -/
structure ConfirmedTx where
  failed : Bool
  message : TxMessage
  deriving DecidableEq, Repr

/-- `matchEscrowInstruction`: keep the instructions whose program key equals
the escrow program, whose first eight data bytes equal the expected
discriminator, and whose referenced accounts include the expected vault PDA.
Returns the data of each surviving instruction (the only field the caller
uses). -/
def matchEscrowInstruction (escrowProgramId : String) (msg : TxMessage)
    (expectedDiscriminator : List Nat) (expectedPda : String) : List (List Nat) :=
  let escrowIxs := msg.instructions.filter fun ix =>
    match msg.accountKeys.get? ix.programIdIndex with
    | some k => k == escrowProgramId
    | none => false
  escrowIxs.filterMap fun ix =>
    if ix.data.length < 8 then none
    else if ix.data.take 8 ≠ expectedDiscriminator then none
    else
      let ixAccounts := ix.accountKeyIndexes.filterMap fun i => msg.accountKeys.get? i
      if expectedPda ∈ ixAccounts then some ix.data else none

/-- `calcFeeLamports`: zero for non-positive amounts, otherwise
`Math.floor(lamports * LOCKED_WITHDRAW_FEE_BPS / 10_000)`. -/
def calcFeeLamports (feeBps : ℚ) (lamports : ℤ) : ℤ :=
  if lamports ≤ 0 then 0 else ⌊(lamports : ℚ) * feeBps / 10000⌋

/-- The status of a deposit/withdrawal row.  The source stores strings
(`SOL_CONFIRMED` / `WITHDRAW_CONFIRMED`, `SOL_PENDING:<lamports>` /
`WITHDRAW_PENDING:<lamports>`, anything else); the encoding is modelled as a
tagged value with the pending lamports quote carried directly. -/
inductive RecStatus where
  | confirmed
  | pending (lamports : ℤ)
  | other
  deriving DecidableEq, Repr

/-- The fields of a deposit/withdrawal row that the confirm endpoints read
and write. -/
structure DepositRecord where
  status : RecStatus
  txSig : Option String
  netUsdc : ℚ
  deriving DecidableEq, Repr

/-- An admin-fee ledger row (`status: "FEE_CONFIRMED"`). -/
structure FeeRow where
  potId : String
  userId : String
  txSig : String
  deriving DecidableEq, Repr

/-- The outcome sent back by a confirm endpoint. -/
inductive ConfirmOutcome where
  | ok (signature : String)
  | err (code : String)
  deriving DecidableEq, Repr

/-- `dep.txSig && dep.txSig !== body.signature`: a stored signature that
differs from the submitted one. -/
def sigMismatch (stored : Option String) (reqSig : String) : Bool :=
  match stored with
  | some s => s != reqSig
  | none => false

/-- The deterministic context of one withdrawal confirmation: program id,
discriminator derivation, the vault PDA and pot-hash digest re-derived from
the owner and pot id, the fee configuration, and the admin ledger identity. -/
structure WithdrawConfirmEnv where
  escrowProgramId : String
  discOf : String → List Nat
  pda : String
  expectedPotHash : List Nat
  feeBps : ℚ
  adminConfig : Option (String × String)
  adminUserId : String

/-- Payload phase of `/v1/withdrawals/sol/confirm` (source lines 3011–3090):
decode the single surviving instruction, check pot hash, amount and fee, then
flip the record to confirmed and (for locked pots) append the admin-fee row
unless one already exists for this signature. -/
def withdrawPayloadPhase (env : WithdrawConfirmEnv) (wd : DepositRecord)
    (locked : Bool) (reqSig : String) (expectedLamports : ℤ)
    (feeLedger : List FeeRow) (data : List Nat) :
    ConfirmOutcome × DepositRecord × List FeeRow :=
  match parseEscrowInstructionData data with
  | none => (.err "escrow_ix_invalid", wd, feeLedger)
  | some parsed =>
    if parsed.potHash ≠ env.expectedPotHash then (.err "escrow_pot_mismatch", wd, feeLedger)
    else if (parsed.lamports : ℤ) ≠ expectedLamports then
      (.err "escrow_amount_mismatch", wd, feeLedger)
    else
      let feeErr : Option String :=
        if locked then
          if parsed.feeLamports.map (fun f => (f : ℤ)) ≠
              some (calcFeeLamports env.feeBps expectedLamports) then
            some "escrow_fee_mismatch"
          else none
        else
          match parsed.feeLamports with
          | some f => if 0 < f then some "escrow_unexpected_fee" else none
          | none => none
      match feeErr with
      | some e => (.err e, wd, feeLedger)
      | none =>
        let wd' : DepositRecord := { wd with status := .confirmed, txSig := some reqSig }
        let ledger' :=
          match env.adminConfig with
          | some (_, adminPotId) =>
            if locked then
              let feeUsd := |wd.netUsdc| * (env.feeBps / 10000)
              if 0 < feeUsd then
                if (feeLedger.filter fun r =>
                    r.potId == adminPotId && r.userId == env.adminUserId &&
                      r.txSig == reqSig).isEmpty then
                  feeLedger ++ [⟨adminPotId, env.adminUserId, reqSig⟩]
                else feeLedger
              else feeLedger
            else feeLedger
          | none => feeLedger
        (.ok reqSig, wd', ledger')

/-- `/v1/withdrawals/sol/confirm` (source lines 2954–3091), from the loaded
withdrawal row onward: replay check on an already-confirmed row, signature
mismatch check, pending-quote check, transaction fetch and outcome check,
instruction matching with the zero/multiple tie-break, then the payload
phase. -/
def confirmSolWithdrawal (env : WithdrawConfirmEnv) (wd : DepositRecord)
    (locked : Bool) (reqSig : String) (fetched : Option ConfirmedTx)
    (feeLedger : List FeeRow) : ConfirmOutcome × DepositRecord × List FeeRow :=
  match wd.status with
  | .confirmed =>
    match wd.txSig with
    | some s => if s ≠ reqSig then (.err "signature_mismatch", wd, feeLedger) else (.ok s, wd, feeLedger)
    | none => (.ok reqSig, wd, feeLedger)
  | .other => (.err "invalid_state", wd, feeLedger)
  | .pending expectedLamports =>
    if sigMismatch wd.txSig reqSig then
      (.err "signature_mismatch", wd, feeLedger)
    else if expectedLamports ≤ 0 then (.err "withdrawal_missing_quote", wd, feeLedger)
    else
      match fetched with
      | none => (.err "tx_not_found", wd, feeLedger)
      | some tx =>
        if tx.failed then (.err "tx_failed", wd, feeLedger)
        else
          match matchEscrowInstruction env.escrowProgramId tx.message
              (env.discOf (if locked then "withdraw_with_fee" else "withdraw")) env.pda with
          | [] => (.err "escrow_ix_missing", wd, feeLedger)
          | [data] => withdrawPayloadPhase env wd locked reqSig expectedLamports feeLedger data
          | _ => (.err "escrow_ix_multiple", wd, feeLedger)

/-- The deterministic context of one deposit confirmation. -/
structure DepositConfirmEnv where
  escrowProgramId : String
  discOf : String → List Nat
  pda : String
  expectedPotHash : List Nat
  luloEnabled : Bool

/-- `/v1/deposits/sol/confirm` (source lines 2722–2816), from the loaded
deposit row onward.  The third component is the list of deposit ids for which
an `ALLOCATE` Lulo operation row exists. -/
def confirmSolDeposit (env : DepositConfirmEnv) (dep : DepositRecord)
    (depId : String) (reqSig : String) (fetched : Option ConfirmedTx)
    (luloOps : List String) : ConfirmOutcome × DepositRecord × List String :=
  match dep.status with
  | .confirmed =>
    match dep.txSig with
    | some s => if s ≠ reqSig then (.err "signature_mismatch", dep, luloOps) else (.ok s, dep, luloOps)
    | none => (.ok reqSig, dep, luloOps)
  | .other => (.err "invalid_state", dep, luloOps)
  | .pending expectedLamports =>
    if sigMismatch dep.txSig reqSig then
      (.err "signature_mismatch", dep, luloOps)
    else if expectedLamports ≤ 0 then (.err "deposit_missing_quote", dep, luloOps)
    else
      match fetched with
      | none => (.err "tx_not_found", dep, luloOps)
      | some tx =>
        if tx.failed then (.err "tx_failed", dep, luloOps)
        else
          match matchEscrowInstruction env.escrowProgramId tx.message
              (env.discOf "deposit") env.pda with
          | [] => (.err "escrow_ix_missing", dep, luloOps)
          | [data] =>
            match parseEscrowInstructionData data with
            | none => (.err "escrow_ix_invalid", dep, luloOps)
            | some parsed =>
              if parsed.potHash ≠ env.expectedPotHash then
                (.err "escrow_pot_mismatch", dep, luloOps)
              else if (parsed.lamports : ℤ) ≠ expectedLamports then
                (.err "escrow_amount_mismatch", dep, luloOps)
              else
                let dep' : DepositRecord := { dep with status := .confirmed, txSig := some reqSig }
                let luloOps' :=
                  if env.luloEnabled then
                    if (luloOps.filter fun d => d == depId).isEmpty then luloOps ++ [depId]
                    else luloOps
                  else luloOps
                (.ok reqSig, dep', luloOps')
          | _ => (.err "escrow_ix_multiple", dep, luloOps)

/-! ## Governance loop (`run` of `cre/workflow.ts`, `execute` of the CRE
workflow) -/

/-- The `for (const pod of pods.pods)` loop of the governance run.  Each
pool's processing (price fetches, advisory call, clamp, signer submission,
audit write) is abstracted as one fallible step; a thrown error propagates
out of the loop, exactly as an unhandled exception does in the source, so no
later pool is processed and no results list is returned. -/
def runPods {Pod Res Err : Type} (process : Pod → Except Err Res) :
    List Pod → Except Err (List Res)
  | [] => .ok []
  | p :: ps =>
    match process p with
    | .error e => .error e
    | .ok r =>
      match runPods process ps with
      | .error e => .error e
      | .ok rs => .ok (r :: rs)

/-! ## Helper definitions used by the statements and proofs -/

/-- Componentwise nonnegativity of a percentage allocation. -/
def NonnegW (w : AllocationPct) : Prop :=
  0 ≤ w.usdc ∧ 0 ≤ w.btc ∧ 0 ≤ w.eth ∧ 0 ≤ w.sol

/-- The shape every row of `POD_RULES` has: a positive stable floor of at
most 100 and volatile bounds of the form `[0, max]` with `0 ≤ max`. -/
structure RulesOK (rules : PodRules) : Prop where
  floor_pos : 0 < rules.luloFloorPct
  floor_le : rules.luloFloorPct ≤ 100
  btc_min : rules.btc.min = 0
  eth_min : rules.eth.min = 0
  sol_min : rules.sol.min = 0
  btc_max : 0 ≤ rules.btc.max
  eth_max : 0 ≤ rules.eth.max
  sol_max : 0 ≤ rules.sol.max

/-- The invariant of the final percentage weights: nonnegative, summing to
exactly 100, stable at or above the floor, volatiles within their bounds. -/
structure WeightsOK (rules : PodRules) (w : AllocationPct) : Prop where
  usdc_nonneg : 0 ≤ w.usdc
  btc_nonneg : 0 ≤ w.btc
  eth_nonneg : 0 ≤ w.eth
  sol_nonneg : 0 ≤ w.sol
  total : w.usdc + w.btc + w.eth + w.sol = 100
  floor_le : rules.luloFloorPct ≤ w.usdc
  btc_le : w.btc ≤ rules.btc.max
  eth_le : w.eth ≤ rules.eth.max
  sol_le : w.sol ≤ rules.sol.max

/-- Field accessor for `AllocationPct` by key. -/
def getPct (w : AllocationPct) : AllocKey → ℚ
  | .usdc => w.usdc
  | .btc => w.btc
  | .eth => w.eth
  | .sol => w.sol

/-- Field accessor for `AllocationBps` by key. -/
def getBps (b : AllocationBps) : AllocKey → ℤ
  | .usdc => b.usdc
  | .btc => b.btc
  | .eth => b.eth
  | .sol => b.sol

/-- The total of the four basis-point fields. -/
def sumBps (b : AllocationBps) : ℤ := b.usdc + b.btc + b.eth + b.sol

/-- The JavaScript sum of the four sanitized weights of a proposal (the value
`normalizeTo100` branches on). -/
def weightSumJs (input : AgentProposal) : JsNum :=
  JsNum.add
    (JsNum.add
      (JsNum.add (sanitizeWeight input.weightsUsdc) (sanitizeWeight input.weightsBtc))
      (sanitizeWeight input.weightsEth))
    (sanitizeWeight input.weightsSol)

/-- A degenerate weight vector: the sanitized sum is non-finite or `≤ 0`
(this is exactly the fallback condition of `normalizeTo100`). -/
def DegenerateWeights (input : AgentProposal) : Prop :=
  ∀ q : ℚ, weightSumJs input = .fin q → q ≤ 0

/-- Number of admin-fee ledger rows for one (pot, user, signature) triple. -/
def countFeeRows (ledger : List FeeRow) (potId userId sig : String) : Nat :=
  (ledger.filter fun r => r.potId == potId && r.userId == userId && r.txSig == sig).length

/-- A concrete per-pool processing function for the governance-loop witnesses:
pool `0` fails the way an HTTP helper failure surfaces, every other pool
succeeds. -/
def c5Process : Nat → Except String Nat :=
  fun n => if n = 0 then .error "http_error:500:POST:/update_policy" else .ok n

/-- A concrete stand-in for `anchorDiscriminator` in witnesses: an eight-byte
tag starting with the name's length, so distinct instruction names of
distinct lengths get distinct tags. -/
def demoDiscOf : String → List Nat :=
  fun s => [s.length % 256, 1, 2, 3, 4, 5, 6, 7]

/-- A concrete 32-byte pot-hash digest. -/
def demoPotHash : List Nat := List.replicate 32 7

/-- A concrete withdrawal instruction payload without a fee field (48 bytes). -/
def demoWithdrawIxData : List Nat :=
  encodeEscrowData demoDiscOf (.withdraw demoPotHash 1000000)

/-- A concrete withdrawal instruction payload with an explicit zero fee field
(56 bytes). -/
def demoFeeZeroIxData : List Nat :=
  demoDiscOf "withdraw" ++ demoPotHash ++ u64le 1000000 ++ u64le 0

/-- A message holding one instruction with the given data, issued by the
escrow program and referencing the vault PDA. -/
def demoMsgWith (data : List Nat) : TxMessage :=
  ⟨["EscrowProg", "VaultPda", "Owner"], [⟨0, [2, 1], data⟩]⟩

/-- A successful confirmed transaction around `demoMsgWith`. -/
def demoTxOk (data : List Nat) : ConfirmedTx := ⟨false, demoMsgWith data⟩

/-- A failed confirmed transaction around `demoMsgWith`. -/
def demoTxFailed (data : List Nat) : ConfirmedTx := ⟨true, demoMsgWith data⟩

/-- A concrete withdrawal-confirmation environment. -/
def demoEnv : WithdrawConfirmEnv :=
  ⟨"EscrowProg", demoDiscOf, "VaultPda", demoPotHash, 1500,
    some ("AdminWallet", "AdminPot"), "AdminUser"⟩

/-- A concrete deposit-confirmation environment. -/
def demoDepEnv : DepositConfirmEnv :=
  ⟨"EscrowProg", demoDiscOf, "VaultPda", demoPotHash, true⟩

/-- A pending withdrawal row quoting 1_000_000 lamports. -/
def demoPendingWd : DepositRecord := ⟨.pending 1000000, none, -50⟩

/-- An already-confirmed row with a stored signature. -/
def demoConfirmedWd : DepositRecord :=
  ⟨.confirmed, some "sigStored1234567890123456", -50⟩

/-- A degenerate advisory proposal: unknown tier and risk strings, a `NaN`
weight, a negative weight, missing weights, an infinite yield request. -/
def demoBadProposal : AgentProposal :=
  { podId := "pod-1", podTier := "weird", weightsUsdc := some .nan,
    weightsBtc := none, weightsEth := some (.fin (-5)), weightsSol := none,
    usdcInLuloPct := some .inf, riskState := some "garbage", reason := some "" }

/-! ## Codec lemmas -/

theorem toLEBytes_length (k n : Nat) : (toLEBytes k n).length = k := by
  induction k generalizing n with
  | zero => simp [toLEBytes]
  | succ k ih => simp [toLEBytes, ih]

theorem u64le_length (n : Nat) : (u64le n).length = 8 := toLEBytes_length 8 n

theorem fromLEBytes_toLEBytes (k n : Nat) : fromLEBytes (toLEBytes k n) = n % 256 ^ k := by
  induction k generalizing n with
  | zero => simp [toLEBytes, fromLEBytes, Nat.mod_one]
  | succ k ih =>
    have h : (256 : Nat) ^ (k + 1) = 256 * 256 ^ k := by ring
    simp only [toLEBytes, fromLEBytes, List.foldr_cons] at *
    rw [ih, h, Nat.mod_mul]

theorem decodeU64LE_u64le (n : Nat) (h : n < 2 ^ 64) : decodeU64LE (u64le n) = n := by
  unfold decodeU64LE
  rw [List.take_of_length_le (by rw [u64le_length])]
  unfold u64le
  rw [fromLEBytes_toLEBytes]
  have h256 : (256 : Nat) ^ 8 = 2 ^ 64 := by norm_num
  rw [h256, Nat.mod_eq_of_lt h]

theorem take_append_exact (l rest : List Nat) (k : Nat) (h : l.length = k) :
    (l ++ rest).take k = l := by
  rw [List.take_append_eq_append_take, h]
  simp [List.take_of_length_le (le_of_eq h)]

theorem drop_append_exact (l rest : List Nat) (k : Nat) (h : l.length = k) :
    (l ++ rest).drop k = rest := by
  rw [List.drop_append_eq_append_drop, h]
  simp [List.drop_of_length_le (le_of_eq h)]

theorem parse_encode_nofee (d ph : List Nat) (n : Nat) (hd : d.length = 8)
    (hp : ph.length = 32) (hn : n < 2 ^ 64) :
    parseEscrowInstructionData (d ++ ph ++ u64le n) = some ⟨d, ph, n, none⟩ := by
  have hu := u64le_length n
  have hlen : (d ++ (ph ++ u64le n)).length = 48 := by simp [hd, hp, hu]
  have h1 : (d ++ (ph ++ u64le n)).take 8 = d := take_append_exact _ _ _ hd
  have hdrop8 : (d ++ (ph ++ u64le n)).drop 8 = ph ++ u64le n := drop_append_exact _ _ _ hd
  have h2 : ((d ++ (ph ++ u64le n)).drop 8).take 32 = ph := by
    rw [hdrop8]; exact take_append_exact _ _ _ hp
  have h3 : ((d ++ (ph ++ u64le n)).drop 40).take 8 = u64le n := by
    have h40 : ((d ++ (ph ++ u64le n)).drop 8).drop 32 = (d ++ (ph ++ u64le n)).drop 40 := by
      rw [List.drop_drop]
    have : (d ++ (ph ++ u64le n)).drop 40 = u64le n := by
      rw [← h40, hdrop8, drop_append_exact _ _ _ hp]
    rw [this, List.take_of_length_le (le_of_eq hu)]
  simp [parseEscrowInstructionData, hlen, h1, h2, h3, decodeU64LE_u64le n hn]

theorem parse_encode_fee (d ph : List Nat) (n f : Nat) (hd : d.length = 8)
    (hp : ph.length = 32) (hn : n < 2 ^ 64) (hf : f < 2 ^ 64) :
    parseEscrowInstructionData (d ++ ph ++ u64le n ++ u64le f) = some ⟨d, ph, n, some f⟩ := by
  have hu := u64le_length n
  have huf := u64le_length f
  have hlen : (d ++ (ph ++ (u64le n ++ u64le f))).length = 56 := by simp [hd, hp, hu, huf]
  have h1 : (d ++ (ph ++ (u64le n ++ u64le f))).take 8 = d := take_append_exact _ _ _ hd
  have hdrop8 : (d ++ (ph ++ (u64le n ++ u64le f))).drop 8 = ph ++ (u64le n ++ u64le f) :=
    drop_append_exact _ _ _ hd
  have h2 : ((d ++ (ph ++ (u64le n ++ u64le f))).drop 8).take 32 = ph := by
    rw [hdrop8]; exact take_append_exact _ _ _ hp
  have hdrop40 : (d ++ (ph ++ (u64le n ++ u64le f))).drop 40 = u64le n ++ u64le f := by
    have h40 : ((d ++ (ph ++ (u64le n ++ u64le f))).drop 8).drop 32 =
        (d ++ (ph ++ (u64le n ++ u64le f))).drop 40 := by rw [List.drop_drop]
    rw [← h40, hdrop8, drop_append_exact _ _ _ hp]
  have h3 : ((d ++ (ph ++ (u64le n ++ u64le f))).drop 40).take 8 = u64le n := by
    rw [hdrop40]; exact take_append_exact _ _ _ hu
  have h4 : ((d ++ (ph ++ (u64le n ++ u64le f))).drop 48).take 8 = u64le f := by
    have h48 : ((d ++ (ph ++ (u64le n ++ u64le f))).drop 40).drop 8 =
        (d ++ (ph ++ (u64le n ++ u64le f))).drop 48 := by rw [List.drop_drop]
    rw [← h48, hdrop40, drop_append_exact _ _ _ hu, List.take_of_length_le (le_of_eq huf)]
  simp [parseEscrowInstructionData, hlen, h1, h2, h3, h4,
    decodeU64LE_u64le n hn, decodeU64LE_u64le f hf]

/-- C7: for every valid escrow operation, decoding the encoded instruction
bytes — 8-byte discriminator, 32-byte account digest, 8-byte little-endian
amount, optional 8-byte little-endian fee — returns the original operation,
with the fee decoded as present exactly when it was encoded. -/
theorem escrow_codec_roundtrip (discOf : String → List Nat) (op : EscrowOp)
    (hd : (discOf op.ixName).length = 8) (hp : op.potHash.length = 32)
    (hl : op.lamports < 2 ^ 64) (hf : ∀ f, op.fee = some f → f < 2 ^ 64) :
    parseEscrowInstructionData (encodeEscrowData discOf op) =
      some ⟨discOf op.ixName, op.potHash, op.lamports, op.fee⟩ := by
  cases op with
  | deposit ph n => exact parse_encode_nofee _ _ _ hd hp hl
  | withdraw ph n => exact parse_encode_nofee _ _ _ hd hp hl
  | withdrawWithFee ph n f => exact parse_encode_fee _ _ _ _ hd hp hl (hf f rfl)

/-- Witness for C7: the round-trip law evaluated on a concrete
withdraw-with-fee operation. -/
theorem escrow_codec_roundtrip_witness :
    parseEscrowInstructionData
        (encodeEscrowData demoDiscOf (.withdrawWithFee demoPotHash 1000000 150000)) =
      some ⟨demoDiscOf "withdraw_with_fee", demoPotHash, 1000000, some 150000⟩ :=
  escrow_codec_roundtrip demoDiscOf (.withdrawWithFee demoPotHash 1000000 150000)
    (by decide) (by decide) (by show (1000000 : Nat) < 2 ^ 64; norm_num)
    (by intro f hf; cases hf; norm_num)

/-! ## Governance-loop theorems -/

/-- Counterexample for C5: with two pools where processing of the first one
fails (e.g. its signer submission returns a non-2xx status), the governance
run propagates the error — the second pool is never processed and no result
is recorded for it, contradicting the isolate-per-item claim. -/
theorem runPods_not_isolated :
    runPods c5Process [0, 1] = .error "http_error:500:POST:/update_policy" := by
  rfl

/-- C5 (amended): pools are processed in order and the run aborts at the
first failing pool with that pool's error; pools after it are not processed
and no results list is returned. -/
theorem runPods_aborts_at_first_failure {Pod Res Err : Type}
    (process : Pod → Except Err Res) (ps : List Pod) (p : Pod) (qs : List Pod)
    (e : Err) (hok : ∀ x ∈ ps, ∃ r, process x = .ok r)
    (hfail : process p = .error e) :
    runPods process (ps ++ p :: qs) = .error e := by
  induction ps with
  | nil => simp [runPods, hfail]
  | cons x xs ih =>
    obtain ⟨r, hr⟩ := hok x (by simp)
    have hxs : ∀ y ∈ xs, ∃ r, process y = .ok r := fun y hy => hok y (by simp [hy])
    simp [runPods, hr, ih hxs]

/-- Witness for the amended C5: a three-pool run where the middle pool fails
aborts with the middle pool's error. -/
theorem runPods_aborts_at_first_failure_witness :
    runPods c5Process ([1] ++ 0 :: [2]) = .error "http_error:500:POST:/update_policy" :=
  runPods_aborts_at_first_failure c5Process [1] 0 [2] _
    (by intro x hx; simp at hx; subst hx; exact ⟨1, rfl⟩) rfl

/-! ## Transaction-verifier theorems -/

/-- C6: a fetched transaction whose recorded outcome is failure is rejected
with `tx_failed` by both confirm endpoints, whatever its instructions
contain and without touching the record or the ledgers. -/
theorem tx_failed_rejected :
    (∀ (env : WithdrawConfirmEnv) (wd : DepositRecord) (locked : Bool) (reqSig : String)
      (tx : ConfirmedTx) (ledger : List FeeRow) (L : ℤ),
      wd.status = .pending L → sigMismatch wd.txSig reqSig = false → 0 < L →
      tx.failed = true →
      confirmSolWithdrawal env wd locked reqSig (some tx) ledger =
        (.err "tx_failed", wd, ledger))
    ∧ (∀ (env : DepositConfirmEnv) (dep : DepositRecord) (depId reqSig : String)
      (tx : ConfirmedTx) (ops : List String) (L : ℤ),
      dep.status = .pending L → sigMismatch dep.txSig reqSig = false → 0 < L →
      tx.failed = true →
      confirmSolDeposit env dep depId reqSig (some tx) ops =
        (.err "tx_failed", dep, ops)) := by
  constructor
  · intro env wd locked reqSig tx ledger L hst hsig hL hfail
    obtain ⟨st, sig, usd⟩ := wd
    simp only at hst
    subst hst
    simp only [confirmSolWithdrawal, hsig, Bool.false_eq_true, if_false, hfail, if_true,
      if_neg (by omega : ¬ L ≤ 0)]
  · intro env dep depId reqSig tx ops L hst hsig hL hfail
    obtain ⟨st, sig, usd⟩ := dep
    simp only at hst
    subst hst
    simp only [confirmSolDeposit, hsig, Bool.false_eq_true, if_false, hfail, if_true,
      if_neg (by omega : ¬ L ≤ 0)]

/-- Witness for C6: a failed transaction that does contain a uniquely
matching withdrawal instruction (right program, discriminator, vault,
digest, amount) is still rejected with `tx_failed`. -/
theorem tx_failed_rejected_witness :
    confirmSolWithdrawal demoEnv demoPendingWd false "sigNew1234567890123456789"
        (some (demoTxFailed demoWithdrawIxData)) [] =
      (.err "tx_failed", demoPendingWd, []) :=
  tx_failed_rejected.1 demoEnv demoPendingWd false "sigNew1234567890123456789"
    (demoTxFailed demoWithdrawIxData) [] 1000000 rfl rfl (by norm_num) rfl

/-- C3: with the searching preconditions met, the withdrawal verifier fails
with `escrow_ix_missing` when no instruction survives the
program/discriminator/vault filter, fails with `escrow_ix_multiple` when
more than one survives (never selecting any), and proceeds to the payload
checks exactly when one survives. -/
theorem instruction_tiebreak (env : WithdrawConfirmEnv) (wd : DepositRecord)
    (locked : Bool) (reqSig : String) (tx : ConfirmedTx) (ledger : List FeeRow)
    (L : ℤ) (hst : wd.status = .pending L)
    (hsig : sigMismatch wd.txSig reqSig = false) (hL : 0 < L)
    (hfail : tx.failed = false) :
    (matchEscrowInstruction env.escrowProgramId tx.message
        (env.discOf (if locked then "withdraw_with_fee" else "withdraw")) env.pda = [] →
      confirmSolWithdrawal env wd locked reqSig (some tx) ledger =
        (.err "escrow_ix_missing", wd, ledger))
    ∧ (2 ≤ (matchEscrowInstruction env.escrowProgramId tx.message
        (env.discOf (if locked then "withdraw_with_fee" else "withdraw")) env.pda).length →
      confirmSolWithdrawal env wd locked reqSig (some tx) ledger =
        (.err "escrow_ix_multiple", wd, ledger))
    ∧ (∀ d, matchEscrowInstruction env.escrowProgramId tx.message
        (env.discOf (if locked then "withdraw_with_fee" else "withdraw")) env.pda = [d] →
      confirmSolWithdrawal env wd locked reqSig (some tx) ledger =
        withdrawPayloadPhase env wd locked reqSig L ledger d) := by
  obtain ⟨st, sig, usd⟩ := wd
  simp only at hst
  subst hst
  refine ⟨?_, ?_, ?_⟩
  · intro hm
    simp only [confirmSolWithdrawal, hsig, Bool.false_eq_true, if_false,
      if_neg (by omega : ¬ L ≤ 0), hfail, hm]
  · intro hlen
    rcases hms : matchEscrowInstruction env.escrowProgramId tx.message
        (env.discOf (if locked then "withdraw_with_fee" else "withdraw")) env.pda with
      _ | ⟨d1, _ | ⟨d2, rest⟩⟩
    · rw [hms] at hlen; simp at hlen
    · rw [hms] at hlen; simp at hlen
    · simp only [confirmSolWithdrawal, hsig, Bool.false_eq_true, if_false,
        if_neg (by omega : ¬ L ≤ 0), hfail, hms]
  · intro d hm
    simp only [confirmSolWithdrawal, hsig, Bool.false_eq_true, if_false,
      if_neg (by omega : ¬ L ≤ 0), hfail, hm]

/-- Witness for C3: a transaction carrying two identical matching
instructions is rejected with `escrow_ix_multiple`. -/
theorem instruction_tiebreak_witness :
    confirmSolWithdrawal demoEnv demoPendingWd false "sigNew1234567890123456789"
        (some ⟨false, ⟨["EscrowProg", "VaultPda", "Owner"],
          [⟨0, [2, 1], demoWithdrawIxData⟩, ⟨0, [2, 1], demoWithdrawIxData⟩]⟩⟩) [] =
      (.err "escrow_ix_multiple", demoPendingWd, []) :=
  (instruction_tiebreak demoEnv demoPendingWd false "sigNew1234567890123456789"
      ⟨false, ⟨["EscrowProg", "VaultPda", "Owner"],
        [⟨0, [2, 1], demoWithdrawIxData⟩, ⟨0, [2, 1], demoWithdrawIxData⟩]⟩⟩ [] 1000000
      rfl rfl (by norm_num) rfl).2.1 (by decide)

/-- Counterexample for C4: when no fee is expected (unlocked pot), a 56-byte
instruction whose fee field decodes as present with value `0` is accepted —
the verifier does not require the fee field to be absent, contradicting the
claim's "accepts only if the fee field is absent". -/
theorem unexpected_fee_counterexample :
    parseEscrowInstructionData demoFeeZeroIxData =
      some ⟨demoDiscOf "withdraw", demoPotHash, 1000000, some 0⟩
    ∧ confirmSolWithdrawal demoEnv demoPendingWd false "sigNew1234567890123456789"
        (some (demoTxOk demoFeeZeroIxData)) [] =
      (.ok "sigNew1234567890123456789",
        ⟨.confirmed, some "sigNew1234567890123456789", -50⟩, []) := by
  constructor
  · decide
  · decide

/-- C4 (amended): when a fee is expected (locked pot) the decoded fee must
equal `floor(amount * feeBps / 10000)` exactly or verification fails with
`escrow_fee_mismatch`; when no fee is expected, verification fails with
`escrow_unexpected_fee` exactly when the decoded fee is present and
positive — a fee field that is absent or decodes to zero is accepted; a
48-byte instruction decodes with the fee absent. -/
theorem fee_check_rules :
    (∀ (env : WithdrawConfirmEnv) (wd : DepositRecord) (locked : Bool) (reqSig : String)
      (tx : ConfirmedTx) (ledger : List FeeRow) (L : ℤ) (d : List Nat)
      (parsed : ParsedEscrowIx),
      wd.status = .pending L → sigMismatch wd.txSig reqSig = false → 0 < L →
      tx.failed = false →
      matchEscrowInstruction env.escrowProgramId tx.message
        (env.discOf (if locked then "withdraw_with_fee" else "withdraw")) env.pda = [d] →
      parseEscrowInstructionData d = some parsed →
      parsed.potHash = env.expectedPotHash →
      (parsed.lamports : ℤ) = L →
      ((locked = true →
          parsed.feeLamports.map (fun f => (f : ℤ)) ≠
            some (calcFeeLamports env.feeBps L) →
          confirmSolWithdrawal env wd locked reqSig (some tx) ledger =
            (.err "escrow_fee_mismatch", wd, ledger))
        ∧ (locked = false → ∀ f, parsed.feeLamports = some f → 0 < f →
          confirmSolWithdrawal env wd locked reqSig (some tx) ledger =
            (.err "escrow_unexpected_fee", wd, ledger))
        ∧ (locked = false → (parsed.feeLamports = none ∨ parsed.feeLamports = some 0) →
          confirmSolWithdrawal env wd locked reqSig (some tx) ledger =
            (.ok reqSig, ⟨.confirmed, some reqSig, wd.netUsdc⟩, ledger))))
    ∧ (∀ raw : List Nat, raw.length = 48 →
        ∃ p, parseEscrowInstructionData raw = some p ∧ p.feeLamports = none) := by
  constructor
  · intro env wd locked reqSig tx ledger L d parsed hst hsig hL hfail hm hparse hpot hlam
    obtain ⟨st, sig, usd⟩ := wd
    simp only at hst
    subst hst
    have hbase : confirmSolWithdrawal env ⟨.pending L, sig, usd⟩ locked reqSig (some tx) ledger =
        withdrawPayloadPhase env ⟨.pending L, sig, usd⟩ locked reqSig L ledger d := by
      simp only [confirmSolWithdrawal, hsig, Bool.false_eq_true, if_false,
        if_neg (by omega : ¬ L ≤ 0), hfail, hm]
    refine ⟨?_, ?_, ?_⟩
    · intro hlocked hne
      subst hlocked
      rw [hbase]
      simp only [withdrawPayloadPhase, hparse]
      rw [if_neg (by simp [hpot]), if_neg (by simp [hlam])]
      rcases hflam : parsed.feeLamports with _ | f
      · simp [hflam] at hne ⊢
      · rw [hflam] at hne
        have hne2 : ((f : ℤ)) ≠ calcFeeLamports env.feeBps L := by simpa using hne
        simp [hflam, hne2]
    · intro hlocked f hfee hfpos
      subst hlocked
      rw [hbase]
      simp only [withdrawPayloadPhase, hparse]
      rw [if_neg (by simp [hpot]), if_neg (by simp [hlam])]
      simp [hfee, hfpos]
    · intro hlocked hfee
      subst hlocked
      rw [hbase]
      rcases hfee with hfee | hfee
      · simp only [withdrawPayloadPhase, hparse]
        rw [if_neg (by simp [hpot]), if_neg (by simp [hlam])]
        simp only [hfee]
        rcases env.adminConfig with _ | ⟨w, pid⟩ <;> rfl
      · simp only [withdrawPayloadPhase, hparse]
        rw [if_neg (by simp [hpot]), if_neg (by simp [hlam])]
        simp only [hfee, lt_self_iff_false, if_false]
        rcases env.adminConfig with _ | ⟨w, pid⟩ <;> rfl
  · intro raw hlen
    refine ⟨⟨raw.take 8, (raw.drop 8).take 32, decodeU64LE ((raw.drop 40).take 8), none⟩, ?_, rfl⟩
    simp [parseEscrowInstructionData, hlen]

/-- Witness for the amended C4: on an unlocked pot, a matching instruction
carrying a positive fee field is rejected with `escrow_unexpected_fee`. -/
theorem fee_check_rules_witness :
    confirmSolWithdrawal demoEnv demoPendingWd false "sigNew1234567890123456789"
        (some (demoTxOk (demoDiscOf "withdraw" ++ demoPotHash ++ u64le 1000000 ++ u64le 5)))
        [] =
      (.err "escrow_unexpected_fee", demoPendingWd, []) :=
  ((fee_check_rules.1 demoEnv demoPendingWd false "sigNew1234567890123456789"
      (demoTxOk (demoDiscOf "withdraw" ++ demoPotHash ++ u64le 1000000 ++ u64le 5)) []
      1000000 (demoDiscOf "withdraw" ++ demoPotHash ++ u64le 1000000 ++ u64le 5)
      ⟨demoDiscOf "withdraw", demoPotHash, 1000000, some 5⟩
      rfl rfl (by norm_num) rfl (by decide) (by decide) (by decide)
      (by norm_num)).2.1) rfl 5 rfl (by norm_num)

/-- The payload phase either leaves the fee ledger unchanged, or appends
exactly one admin-fee row for the submitted signature after checking that no
such row exists yet. -/
theorem payload_ledger_shape (env : WithdrawConfirmEnv) (wd : DepositRecord)
    (locked : Bool) (reqSig : String) (L : ℤ) (ledger : List FeeRow) (d : List Nat) :
    (withdrawPayloadPhase env wd locked reqSig L ledger d).2.2 = ledger ∨
    ∃ w pid, env.adminConfig = some (w, pid) ∧
      (ledger.filter fun r =>
        r.potId == pid && r.userId == env.adminUserId && r.txSig == reqSig).isEmpty = true ∧
      (withdrawPayloadPhase env wd locked reqSig L ledger d).2.2 =
        ledger ++ [⟨pid, env.adminUserId, reqSig⟩] := by
  unfold withdrawPayloadPhase
  rcases hp : parseEscrowInstructionData d with _ | parsed
  · simp [hp]
  · rcases hfl : parsed.feeLamports with _ | f <;>
    rcases hconf : env.adminConfig with _ | ⟨w, pid⟩ <;>
    cases locked <;>
    simp only [hp, hfl, hconf, Bool.false_eq_true, if_true, if_false, ite_true, ite_false] <;>
    split_ifs <;>
    first
      | (left; rfl)
      | (right; exact ⟨w, pid, rfl, by assumption, rfl⟩)

/-- The whole withdrawal-confirm endpoint has the same ledger shape: either
unchanged, or one admin-fee row appended under the existence check. -/
theorem withdrawal_ledger_shape (env : WithdrawConfirmEnv) (wd : DepositRecord)
    (locked : Bool) (reqSig : String) (fetched : Option ConfirmedTx)
    (ledger : List FeeRow) :
    (confirmSolWithdrawal env wd locked reqSig fetched ledger).2.2 = ledger ∨
    ∃ w pid, env.adminConfig = some (w, pid) ∧
      (ledger.filter fun r =>
        r.potId == pid && r.userId == env.adminUserId && r.txSig == reqSig).isEmpty = true ∧
      (confirmSolWithdrawal env wd locked reqSig fetched ledger).2.2 =
        ledger ++ [⟨pid, env.adminUserId, reqSig⟩] := by
  unfold confirmSolWithdrawal
  split
  · split
    · split
      · left; rfl
      · left; rfl
    · left; rfl
  · left; rfl
  · split
    · left; rfl
    · split
      · left; rfl
      · split
        · left; rfl
        · split
          · left; rfl
          · split
            · left; rfl
            · exact payload_ledger_shape _ _ _ _ _ _ _
            · left; rfl

/-- Appending the guarded admin-fee row keeps at most one row per
(pot, user, signature) triple. -/
theorem countFeeRows_append (ledger : List FeeRow) (pid uid sig : String)
    (p u s : String) (hled : countFeeRows ledger p u s ≤ 1)
    (hemp : (ledger.filter fun r =>
      r.potId == pid && r.userId == uid && r.txSig == sig).isEmpty = true) :
    countFeeRows (ledger ++ [⟨pid, uid, sig⟩]) p u s ≤ 1 := by
  unfold countFeeRows at *
  rw [List.filter_append]
  by_cases hmatch : pid = p ∧ uid = u ∧ sig = s
  · obtain ⟨h1, h2, h3⟩ := hmatch
    subst h1; subst h2; subst h3
    have h0 : (ledger.filter fun r =>
        r.potId == pid && r.userId == uid && r.txSig == sig).length = 0 := by
      rw [List.isEmpty_iff] at hemp
      rw [hemp]
      rfl
    simp [h0]
  · have : (([⟨pid, uid, sig⟩] : List FeeRow).filter fun r =>
        r.potId == p && r.userId == u && r.txSig == s) = [] := by
      simp only [List.filter, Bool.and_eq_true, beq_iff_eq]
      split
      · rename_i hcond
        simp only [Bool.and_eq_true, beq_iff_eq] at hcond
        exact absurd ⟨hcond.1.1, hcond.1.2, hcond.2⟩ hmatch
      · rfl
    rw [this]
    simpa using hled

/-- C10: confirmation is replay-safe — an already-confirmed record returns
success for the stored (or no stored) signature and `signature_mismatch` for
a different one, never modifying the record or the ledgers — and the
admin-fee ledger keeps at most one row per (pot, user, signature) triple
across any confirm call. -/
theorem confirm_replay_and_fee_once :
    (∀ (env : WithdrawConfirmEnv) (wd : DepositRecord) (locked : Bool) (reqSig : String)
      (fetched : Option ConfirmedTx) (ledger : List FeeRow) (s : String),
      wd.status = .confirmed → wd.txSig = some s → s = reqSig →
      confirmSolWithdrawal env wd locked reqSig fetched ledger = (.ok s, wd, ledger))
    ∧ (∀ (env : WithdrawConfirmEnv) (wd : DepositRecord) (locked : Bool) (reqSig : String)
      (fetched : Option ConfirmedTx) (ledger : List FeeRow),
      wd.status = .confirmed → wd.txSig = none →
      confirmSolWithdrawal env wd locked reqSig fetched ledger = (.ok reqSig, wd, ledger))
    ∧ (∀ (env : WithdrawConfirmEnv) (wd : DepositRecord) (locked : Bool) (reqSig : String)
      (fetched : Option ConfirmedTx) (ledger : List FeeRow) (s : String),
      wd.status = .confirmed → wd.txSig = some s → s ≠ reqSig →
      confirmSolWithdrawal env wd locked reqSig fetched ledger =
        (.err "signature_mismatch", wd, ledger))
    ∧ (∀ (env : DepositConfirmEnv) (dep : DepositRecord) (depId reqSig : String)
      (fetched : Option ConfirmedTx) (ops : List String) (s : String),
      dep.status = .confirmed → dep.txSig = some s → s = reqSig →
      confirmSolDeposit env dep depId reqSig fetched ops = (.ok s, dep, ops))
    ∧ (∀ (env : DepositConfirmEnv) (dep : DepositRecord) (depId reqSig : String)
      (fetched : Option ConfirmedTx) (ops : List String),
      dep.status = .confirmed → dep.txSig = none →
      confirmSolDeposit env dep depId reqSig fetched ops = (.ok reqSig, dep, ops))
    ∧ (∀ (env : DepositConfirmEnv) (dep : DepositRecord) (depId reqSig : String)
      (fetched : Option ConfirmedTx) (ops : List String) (s : String),
      dep.status = .confirmed → dep.txSig = some s → s ≠ reqSig →
      confirmSolDeposit env dep depId reqSig fetched ops =
        (.err "signature_mismatch", dep, ops))
    ∧ (∀ (env : WithdrawConfirmEnv) (wd : DepositRecord) (locked : Bool) (reqSig : String)
      (fetched : Option ConfirmedTx) (ledger : List FeeRow) (p u s : String),
      countFeeRows ledger p u s ≤ 1 →
      countFeeRows (confirmSolWithdrawal env wd locked reqSig fetched ledger).2.2 p u s ≤ 1) := by
  refine ⟨?_, ?_, ?_, ?_, ?_, ?_, ?_⟩
  · intro env wd locked reqSig fetched ledger s hst htx hs
    obtain ⟨st, sig, usd⟩ := wd
    simp only at hst htx
    subst hst; subst htx; subst hs
    simp [confirmSolWithdrawal]
  · intro env wd locked reqSig fetched ledger hst htx
    obtain ⟨st, sig, usd⟩ := wd
    simp only at hst htx
    subst hst; subst htx
    simp [confirmSolWithdrawal]
  · intro env wd locked reqSig fetched ledger s hst htx hs
    obtain ⟨st, sig, usd⟩ := wd
    simp only at hst htx
    subst hst; subst htx
    simp [confirmSolWithdrawal, hs]
  · intro env dep depId reqSig fetched ops s hst htx hs
    obtain ⟨st, sig, usd⟩ := dep
    simp only at hst htx
    subst hst; subst htx; subst hs
    simp [confirmSolDeposit]
  · intro env dep depId reqSig fetched ops hst htx
    obtain ⟨st, sig, usd⟩ := dep
    simp only at hst htx
    subst hst; subst htx
    simp [confirmSolDeposit]
  · intro env dep depId reqSig fetched ops s hst htx hs
    obtain ⟨st, sig, usd⟩ := dep
    simp only at hst htx
    subst hst; subst htx
    simp [confirmSolDeposit, hs]
  · intro env wd locked reqSig fetched ledger p u s hled
    rcases withdrawal_ledger_shape env wd locked reqSig fetched ledger with h | ⟨w, pid, _, hemp, h⟩
    · rw [h]; exact hled
    · rw [h]; exact countFeeRows_append ledger pid env.adminUserId reqSig p u s hled hemp

/-- Witness for C10: replaying the confirm endpoint on an already-confirmed
withdrawal with a different signature fails with `signature_mismatch` and
leaves the record and ledger untouched. -/
theorem confirm_replay_and_fee_once_witness :
    confirmSolWithdrawal demoEnv demoConfirmedWd false "sigOther1234567890123456" none [] =
      (.err "signature_mismatch", demoConfirmedWd, []) :=
  confirm_replay_and_fee_once.2.2.1 demoEnv demoConfirmedWd false
    "sigOther1234567890123456" none [] "sigStored1234567890123456" rfl rfl (by decide)

/-! ## Policy-clamp lemmas -/

theorem clampQ_nonneg (v hi : ℚ) (hhi : 0 ≤ hi) : 0 ≤ clampQ v 0 hi := by
  unfold clampQ
  split_ifs <;> linarith

theorem clampQ_le_max (v hi : ℚ) (hhi : 0 ≤ hi) : clampQ v 0 hi ≤ hi := by
  unfold clampQ
  split_ifs <;> linarith

theorem clampQ_le_self (v hi : ℚ) (hv : 0 ≤ v) : clampQ v 0 hi ≤ v := by
  unfold clampQ
  split_ifs <;> linarith

/-- A finite JavaScript sum has finite addends. -/
theorem jsAdd_fin (x y : JsNum) (s : ℚ) (h : JsNum.add x y = .fin s) :
    ∃ a b, x = .fin a ∧ y = .fin b ∧ s = a + b := by
  cases x <;> cases y <;> simp [JsNum.add] at h
  exact ⟨_, _, rfl, rfl, h.symm⟩

/-- A sanitized weight that is finite is nonnegative. -/
theorem sanitizeWeight_fin_nonneg (o : Option JsNum) (q : ℚ)
    (h : sanitizeWeight o = .fin q) : 0 ≤ q := by
  rcases o with _ | v
  · simp only [sanitizeWeight, Option.getD, JsNum.max0] at h
    injection h with h'
    rw [← h']
    exact le_max_left 0 0
  · cases v with
    | fin x =>
      simp only [sanitizeWeight, Option.getD, JsNum.max0] at h
      injection h with h'
      rw [← h']
      exact le_max_left 0 x
    | nan => exact absurd h (by simp [sanitizeWeight, JsNum.max0])
    | inf => exact absurd h (by simp [sanitizeWeight, JsNum.max0])
    | ninf =>
      simp only [sanitizeWeight, Option.getD, JsNum.max0] at h
      injection h with h'
      rw [← h']

/-- The normalized weights are componentwise nonnegative. -/
theorem normalizeTo100_nonneg (ou ob oe os : Option JsNum) :
    NonnegW (normalizeTo100 (sanitizeWeight ou) (sanitizeWeight ob)
      (sanitizeWeight oe) (sanitizeWeight os)) := by
  unfold normalizeTo100
  rcases hsum : JsNum.add (JsNum.add (JsNum.add (sanitizeWeight ou) (sanitizeWeight ob))
      (sanitizeWeight oe)) (sanitizeWeight os) with q | _ | _ | _
  · by_cases hq : q ≤ 0
    · simp [hsum, hq, NonnegW]
    · obtain ⟨a3, d, h3, hd, hq3⟩ := jsAdd_fin _ _ _ hsum
      obtain ⟨a2, c, h2, hc, hq2⟩ := jsAdd_fin _ _ _ h3
      obtain ⟨a, b, ha, hb, hq1⟩ := jsAdd_fin _ _ _ h2
      have hqa := sanitizeWeight_fin_nonneg ou a ha
      have hqb := sanitizeWeight_fin_nonneg ob b hb
      have hqc := sanitizeWeight_fin_nonneg oe c hc
      have hqd := sanitizeWeight_fin_nonneg os d hd
      have hqpos : 0 < q := lt_of_not_le hq
      have hscale : 0 ≤ 100 / q := by positivity
      simp only [hsum, hq, if_false]
      refine ⟨?_, ?_, ?_, ?_⟩ <;>
        simp only [ha, hb, hc, hd, JsNum.finPart] <;> positivity
  · simp [hsum, NonnegW]
  · simp [hsum, NonnegW]
  · simp [hsum, NonnegW]

/-- After a `boundCrypto` pass over nonnegative volatile weights whose sum
fits the post-floor budget, the final `recomputeUsdcFromCrypto` establishes
the full weight invariant. -/
theorem bound_recompute_ok (rules : PodRules) (hr : RulesOK rules)
    (v : AllocationPct) (hb : 0 ≤ v.btc) (he : 0 ≤ v.eth) (hs : 0 ≤ v.sol)
    (hsum : v.btc + v.eth + v.sol ≤ 100 - rules.luloFloorPct) (n2 : List String) :
    WeightsOK rules (recomputeUsdcFromCrypto (boundCrypto v rules n2).1) := by
  obtain ⟨hfp, hfle, hbmin, hemin, hsmin, hbmax, hemax, hsmax⟩ := hr
  have hu : (boundCrypto v rules n2).1 =
      ⟨v.usdc, clampQ v.btc rules.btc.min rules.btc.max,
        clampQ v.eth rules.eth.min rules.eth.max,
        clampQ v.sol rules.sol.min rules.sol.max⟩ := rfl
  rw [hu, hbmin, hemin, hsmin]
  have hb0 := clampQ_nonneg v.btc rules.btc.max hbmax
  have he0 := clampQ_nonneg v.eth rules.eth.max hemax
  have hs0 := clampQ_nonneg v.sol rules.sol.max hsmax
  have hble := clampQ_le_self v.btc rules.btc.max hb
  have hele := clampQ_le_self v.eth rules.eth.max he
  have hsle := clampQ_le_self v.sol rules.sol.max hs
  have hbmx := clampQ_le_max v.btc rules.btc.max hbmax
  have hemx := clampQ_le_max v.eth rules.eth.max hemax
  have hsmx := clampQ_le_max v.sol rules.sol.max hsmax
  have hS : clampQ v.btc 0 rules.btc.max + clampQ v.eth 0 rules.eth.max +
      clampQ v.sol 0 rules.sol.max ≤ 100 - rules.luloFloorPct := by linarith
  unfold recomputeUsdcFromCrypto
  simp only [max_eq_right hb0, max_eq_right he0, max_eq_right hs0]
  have husdc : max 0 (100 - (clampQ v.btc 0 rules.btc.max + clampQ v.eth 0 rules.eth.max +
      clampQ v.sol 0 rules.sol.max)) =
      100 - (clampQ v.btc 0 rules.btc.max + clampQ v.eth 0 rules.eth.max +
        clampQ v.sol 0 rules.sol.max) := by
    apply max_eq_right
    linarith
  rw [husdc]
  refine ⟨?_, ?_, ?_, ?_, ?_, ?_, ?_, ?_, ?_⟩ <;> dsimp only
  · linarith
  · exact hb0
  · exact he0
  · exact hs0
  · ring
  · linarith
  · exact hbmx
  · exact hemx
  · exact hsmx

/-- The `enforceUsdcMinimum → boundCrypto → recomputeUsdcFromCrypto`
composite establishes the full weight invariant for any input in
"recompute form" (stable weight equal to `max 0 (100 - crypto)`). -/
theorem enforce_bound_recompute (rules : PodRules) (hr : RulesOK rules)
    (w : AllocationPct) (hb : 0 ≤ w.btc) (he : 0 ≤ w.eth) (hs : 0 ≤ w.sol)
    (husdc : w.usdc = max 0 (100 - (w.btc + w.eth + w.sol))) (n1 n2 : List String) :
    WeightsOK rules (recomputeUsdcFromCrypto
      (boundCrypto (enforceUsdcMinimum w rules.luloFloorPct n1).1 rules n2).1) := by
  have hfp := hr.floor_pos
  have hfle := hr.floor_le
  unfold enforceUsdcMinimum
  by_cases hcase : rules.luloFloorPct ≤ w.usdc
  · rw [if_pos hcase]
    have hbudget : w.btc + w.eth + w.sol ≤ 100 - rules.luloFloorPct := by
      rcases le_or_lt (100 - (w.btc + w.eth + w.sol)) 0 with hneg | hpos
      · exfalso
        rw [husdc, max_eq_left hneg] at hcase
        linarith
      · rw [husdc, max_eq_right (le_of_lt hpos)] at hcase
        linarith
    exact bound_recompute_ok rules hr w hb he hs hbudget n2
  · rw [if_neg hcase]
    by_cases hzero : max 0 w.btc + max 0 w.eth + max 0 w.sol ≤ 0
    · rw [if_pos hzero]
      exact bound_recompute_ok rules hr ⟨rules.luloFloorPct, 0, 0, 0⟩
        le_rfl le_rfl le_rfl (by simp; linarith) n2
    · rw [if_neg hzero]
      push_neg at hzero
      rw [max_eq_right hb, max_eq_right he, max_eq_right hs] at hzero ⊢
      have htarget : max 0 (100 - rules.luloFloorPct) = 100 - rules.luloFloorPct :=
        max_eq_right (by linarith)
      rw [htarget]
      set scale := (100 - rules.luloFloorPct) / (w.btc + w.eth + w.sol) with hscale
      have hscale0 : 0 ≤ scale := by
        apply div_nonneg (by linarith) (le_of_lt hzero)
      apply bound_recompute_ok rules hr
        ⟨rules.luloFloorPct, w.btc * scale, w.eth * scale, w.sol * scale⟩
        (by positivity) (by positivity) (by positivity)
      show w.btc * scale + w.eth * scale + w.sol * scale ≤ 100 - rules.luloFloorPct
      have hexp : w.btc * scale + w.eth * scale + w.sol * scale =
          (w.btc + w.eth + w.sol) * scale := by ring
      rw [hexp, hscale]
      rw [mul_div_cancel₀ _ (ne_of_gt hzero)]

/-- The full bound/recompute/enforce pipeline of `applyPolicyClamp` yields
weights satisfying the invariant, for every nonnegative input. -/
theorem clampWeights_ok (rules : PodRules) (hr : RulesOK rules)
    (w0 : AllocationPct) (h0 : NonnegW w0) : WeightsOK rules (clampWeights rules w0).1 := by
  obtain ⟨hu0, hb0, he0, hs0⟩ := h0
  have hmain := enforce_bound_recompute rules hr
    (recomputeUsdcFromCrypto (boundCrypto w0 rules []).1)
    (le_max_left 0 _) (le_max_left 0 _) (le_max_left 0 _)
    rfl
    (boundCrypto w0 rules []).2
    (enforceUsdcMinimum (recomputeUsdcFromCrypto (boundCrypto w0 rules []).1)
      rules.luloFloorPct (boundCrypto w0 rules []).2).2
  simp only [clampWeights]
  rw [if_neg (not_lt.mpr hmain.floor_le)]
  exact hmain

theorem POD_RULES_ok (t : PodTier) : RulesOK (POD_RULES t) := by
  cases t <;> constructor <;> norm_num [POD_RULES]

theorem getBps_bumpBps (b : AllocationBps) (q k : AllocKey) :
    getBps (bumpBps b q) k = getBps b k + if q = k then 1 else 0 := by
  cases q <;> cases k <;> simp [bumpBps, getBps]

theorem sumBps_bumpBps (b : AllocationBps) (q : AllocKey) :
    sumBps (bumpBps b q) = sumBps b + 1 := by
  cases q <;> simp [bumpBps, sumBps] <;> ring

theorem foldl_bump_getBps (l : List AllocKey) (b : AllocationBps) (k : AllocKey) :
    getBps (l.foldl bumpBps b) k = getBps b k + (l.count k : ℤ) := by
  induction l generalizing b with
  | nil => simp
  | cons x xs ih =>
    rw [List.foldl_cons, ih, getBps_bumpBps, List.count_cons]
    by_cases hxk : x = k
    · simp only [hxk, if_true, beq_self_eq_true]
      push_cast
      ring
    · simp [hxk]

theorem foldl_bump_sumBps (l : List AllocKey) (b : AllocationBps) :
    sumBps (l.foldl bumpBps b) = sumBps b + l.length := by
  induction l generalizing b with
  | nil => simp
  | cons x xs ih =>
    rw [List.foldl_cons, ih, sumBps_bumpBps]
    simp only [List.length_cons]
    push_cast
    ring

theorem distLoop_eq_foldl (ks : List AllocKey) (r : Nat) :
    ∀ (i : Nat) (b : AllocationBps), i + r ≤ ks.length →
      distLoop ks b r i = ((ks.drop i).take r).foldl bumpBps b := by
  induction r with
  | zero => intro i b h; simp [distLoop]
  | succ r ih =>
    intro i b h
    have hi : i < ks.length := by omega
    rw [distLoop, Nat.mod_eq_of_lt hi, List.getD_eq_getElem ks _ hi,
      ih (i + 1) _ (by omega), List.drop_eq_getElem_cons hi, List.take_succ_cons,
      List.foldl_cons]

theorem list_sum_lt_length (l : List ℚ) (hne : l ≠ []) (hlt : ∀ x ∈ l, x < 1) :
    l.sum < l.length := by
  induction l with
  | nil => exact absurd rfl hne
  | cons x xs ih =>
    rcases xs with _ | ⟨y, ys⟩
    · simpa using hlt x (by simp)
    · have hx := hlt x (by simp)
      have htail := ih (by simp) (fun z hz => hlt z (by simp [hz]))
      simp only [List.sum_cons, List.length_cons] at *
      push_cast at *
      linarith

theorem mergeSort_take_pos (pairs : List (AllocKey × ℚ)) (t : Nat)
    (hge : ∀ p ∈ pairs, 0 ≤ p.2) (hlt : ∀ p ∈ pairs, p.2 < 1)
    (ht : ((t : ℚ)) = (pairs.map Prod.snd).sum) :
    ∀ p ∈ (pairs.mergeSort (fun a b => decide (b.2 ≤ a.2))).take t, 0 < p.2 := by
  intro a ha
  by_contra hle
  push_neg at hle
  have hperm : List.Perm (pairs.mergeSort (fun a b => decide (b.2 ≤ a.2))) pairs :=
    List.mergeSort_perm pairs _
  have hmem : ∀ p ∈ pairs.mergeSort (fun a b => decide (b.2 ≤ a.2)), p ∈ pairs :=
    fun p hp => hperm.mem_iff.mp hp
  have ha2 : a.2 = 0 :=
    le_antisymm hle (hge a (hmem a (List.mem_of_mem_take ha)))
  have hpw : (pairs.mergeSort (fun a b => decide (b.2 ≤ a.2))).Pairwise
      (fun x y => decide (y.2 ≤ x.2) = true) := by
    have := @List.sorted_mergeSort (AllocKey × ℚ) (fun a b => decide (b.2 ≤ a.2))
      (fun a b c hab hbc => by
        simp only [decide_eq_true_eq] at *
        linarith)
      (fun a b => by simp [le_total]) pairs
    simpa using this
  obtain ⟨A₁, A₂, hA⟩ := List.append_of_mem ha
  have hdecomp : pairs.mergeSort (fun a b => decide (b.2 ≤ a.2)) =
      A₁ ++ a :: (A₂ ++ (pairs.mergeSort (fun a b => decide (b.2 ≤ a.2))).drop t) := by
    conv_lhs => rw [← List.take_append_drop t (pairs.mergeSort (fun a b => decide (b.2 ≤ a.2)))]
    rw [hA, List.append_assoc, List.cons_append]
  rw [hdecomp] at hpw
  have hrest : ∀ b ∈ A₂ ++ (pairs.mergeSort (fun a b => decide (b.2 ≤ a.2))).drop t,
      b.2 = 0 := by
    have h2 := List.pairwise_cons.mp (List.pairwise_append.mp hpw).2.1
    intro b hb
    have hble : b.2 ≤ a.2 := by
      have := h2.1 b hb
      simpa using this
    have hbmem : b ∈ pairs := by
      apply hmem
      rw [hdecomp]
      exact List.mem_append.mpr (Or.inr (List.mem_cons.mpr (Or.inr hb)))
    have := hge b hbmem
    rw [ha2] at hble
    linarith
  have hsum_eq : ((pairs.mergeSort (fun a b => decide (b.2 ≤ a.2))).map Prod.snd).sum =
      (pairs.map Prod.snd).sum := (hperm.map Prod.snd).sum_eq
  have hdec_sum : ((pairs.mergeSort (fun a b => decide (b.2 ≤ a.2))).map Prod.snd).sum =
      (A₁.map Prod.snd).sum + a.2 +
        ((A₂ ++ (pairs.mergeSort (fun a b => decide (b.2 ≤ a.2))).drop t).map Prod.snd).sum := by
    conv_lhs => rw [hdecomp]
    rw [List.map_append, List.sum_append, List.map_cons, List.sum_cons]
    ring
  have hrest0 : ((A₂ ++ (pairs.mergeSort (fun a b => decide (b.2 ≤ a.2))).drop t).map
      Prod.snd).sum = 0 := by
    apply List.sum_eq_zero
    intro x hx
    obtain ⟨p, hp, hpx⟩ := List.mem_map.mp hx
    rw [← hpx]
    exact hrest p hp
  have hT : (t : ℚ) = (A₁.map Prod.snd).sum := by
    rw [ht, ← hsum_eq, hdec_sum, ha2, hrest0]
    ring
  have hlenA : A₁.length + 1 ≤ t := by
    have h1 : ((pairs.mergeSort (fun a b => decide (b.2 ≤ a.2))).take t).length =
        A₁.length + 1 + A₂.length := by
      rw [hA]
      simp
      omega
    have h2 : ((pairs.mergeSort (fun a b => decide (b.2 ≤ a.2))).take t).length ≤ t := by
      simp [List.length_take]
    omega
  rcases hA1 : A₁ with _ | ⟨x, xs⟩
  · rw [hA1] at hT
    simp at hT
    have ht0 : t = 0 := by exact_mod_cast hT
    rw [ht0] at hA
    simp at hA
  · have hmemA1 : ∀ p ∈ A₁, p ∈ pairs := by
      intro p hp
      apply hmem
      rw [hdecomp]
      exact List.mem_append.mpr (Or.inl hp)
    have hlt1 : ∀ z ∈ A₁.map Prod.snd, z < 1 := by
      intro z hz
      obtain ⟨p, hp, hpz⟩ := List.mem_map.mp hz
      rw [← hpz]
      exact hlt p (hmemA1 p hp)
    have hlength : (A₁.map Prod.snd).length = A₁.length := List.length_map _ _
    have hlt2 : (A₁.map Prod.snd).sum < A₁.length := by
      have := list_sum_lt_length (A₁.map Prod.snd) (by simp [hA1]) hlt1
      rwa [hlength] at this
    have : (t : ℚ) < A₁.length := by rw [hT]; exact hlt2
    have : t < A₁.length := by exact_mod_cast this
    omega

theorem distSort_master (φf : AllocKey → ℚ) (base : AllocationBps) (R : ℤ)
    (hge : ∀ k, 0 ≤ φf k) (hlt : ∀ k, φf k < 1)
    (hR : (R : ℚ) = φf .usdc + φf .btc + φf .eth + φf .sol) :
    (sumBps (distLoop (([(AllocKey.usdc, φf .usdc), (AllocKey.btc, φf .btc),
        (AllocKey.eth, φf .eth), (AllocKey.sol, φf .sol)].mergeSort
          (fun a b => decide (b.2 ≤ a.2))).map Prod.fst) base R.toNat 0) = sumBps base + R)
    ∧ (∀ k, getBps base k ≤ getBps (distLoop (([(AllocKey.usdc, φf .usdc),
        (AllocKey.btc, φf .btc), (AllocKey.eth, φf .eth),
        (AllocKey.sol, φf .sol)].mergeSort
          (fun a b => decide (b.2 ≤ a.2))).map Prod.fst) base R.toNat 0) k ∧
      getBps (distLoop (([(AllocKey.usdc, φf .usdc), (AllocKey.btc, φf .btc),
        (AllocKey.eth, φf .eth), (AllocKey.sol, φf .sol)].mergeSort
          (fun a b => decide (b.2 ≤ a.2))).map Prod.fst) base R.toNat 0) k ≤
        getBps base k + 1)
    ∧ (∀ k, getBps (distLoop (([(AllocKey.usdc, φf .usdc), (AllocKey.btc, φf .btc),
        (AllocKey.eth, φf .eth), (AllocKey.sol, φf .sol)].mergeSort
          (fun a b => decide (b.2 ≤ a.2))).map Prod.fst) base R.toNat 0) k =
        getBps base k + 1 → 0 < φf k) := by
  set pairs := [(AllocKey.usdc, φf .usdc), (AllocKey.btc, φf .btc),
    (AllocKey.eth, φf .eth), (AllocKey.sol, φf .sol)] with hpairs
  set sorted := pairs.mergeSort (fun a b => decide (b.2 ≤ a.2)) with hsorteddef
  set K := sorted.map Prod.fst with hK
  have hR0 : 0 ≤ R := by
    have hq : (0 : ℚ) ≤ (R : ℚ) := by
      rw [hR]
      linarith [hge .usdc, hge .btc, hge .eth, hge .sol]
    exact_mod_cast hq
  have htR : ((R.toNat : ℤ)) = R := Int.toNat_of_nonneg hR0
  have htQ : ((R.toNat : ℚ)) = (R : ℚ) := by exact_mod_cast htR
  have hsum4 : (pairs.map Prod.snd).sum = φf .usdc + φf .btc + φf .eth + φf .sol := by
    simp [hpairs]
    ring
  have htsum : ((R.toNat : ℚ)) = (pairs.map Prod.snd).sum := by rw [htQ, hR, hsum4]
  have hlen : sorted.length = 4 := by
    rw [hsorteddef, List.length_mergeSort]
    rfl
  have hKlen : K.length = 4 := by rw [hK, List.length_map, hlen]
  have ht4 : R.toNat < 4 := by
    have hlt4 : (pairs.map Prod.snd).sum < 4 := by
      rw [hsum4]
      linarith [hlt .usdc, hlt .btc, hlt .eth, hlt .sol]
    have hq : ((R.toNat : ℚ)) < 4 := by rw [htsum]; exact hlt4
    exact_mod_cast hq
  have heq : distLoop K base R.toNat 0 = (K.take R.toNat).foldl bumpBps base := by
    have h := distLoop_eq_foldl K R.toNat 0 base (by omega)
    simpa using h
  have hn0 : (pairs.map Prod.fst).Nodup := by
    simp [hpairs]
  have hperm : List.Perm sorted pairs := List.mergeSort_perm pairs _
  have hKperm : List.Perm K (pairs.map Prod.fst) := hperm.map Prod.fst
  have hKnodup : K.Nodup := (hKperm.nodup_iff).mpr hn0
  have htakenodup : (K.take R.toNat).Nodup := (List.take_sublist _ _).nodup hKnodup
  have hcount : ∀ k, (K.take R.toNat).count k ≤ 1 :=
    fun k => List.nodup_iff_count_le_one.mp htakenodup k
  have hget : ∀ k, getBps (distLoop K base R.toNat 0) k =
      getBps base k + ((K.take R.toNat).count k : ℤ) := by
    intro k
    rw [heq]
    exact foldl_bump_getBps _ _ _
  refine ⟨?_, ?_, ?_⟩
  · rw [heq, foldl_bump_sumBps]
    have hlentake : (K.take R.toNat).length = R.toNat := by
      simp [List.length_take]
      omega
    rw [hlentake, htR]
  · intro k
    constructor
    · rw [hget k]
      linarith [Int.natCast_nonneg ((K.take R.toNat).count k)]
    · rw [hget k]
      have hc1 : ((K.take R.toNat).count k : ℤ) ≤ 1 := by exact_mod_cast hcount k
      linarith
  · intro k hk1
    rw [hget k] at hk1
    have hcpos : 0 < (K.take R.toNat).count k := by
      by_contra h
      push_neg at h
      have h0 : (K.take R.toNat).count k = 0 := by omega
      rw [h0] at hk1
      simp at hk1
    have hkmem : k ∈ K.take R.toNat := List.count_pos_iff.mp hcpos
    have hmap : K.take R.toNat = (sorted.take R.toNat).map Prod.fst := by
      rw [hK, List.map_take]
    rw [hmap] at hkmem
    obtain ⟨p, hp, hpk⟩ := List.mem_map.mp hkmem
    have hgeP : ∀ q ∈ pairs, 0 ≤ q.2 := by
      intro q hq
      simp only [hpairs, List.mem_cons, List.not_mem_nil, or_false] at hq
      rcases hq with rfl | rfl | rfl | rfl <;> exact hge _
    have hltP : ∀ q ∈ pairs, q.2 < 1 := by
      intro q hq
      simp only [hpairs, List.mem_cons, List.not_mem_nil, or_false] at hq
      rcases hq with rfl | rfl | rfl | rfl <;> exact hlt _
    have hppos : 0 < p.2 := mergeSort_take_pos pairs R.toNat hgeP hltP htsum p hp
    have hpp : p ∈ pairs := hperm.mem_iff.mp (List.mem_of_mem_take hp)
    have hval : p.2 = φf k := by
      simp only [hpairs, List.mem_cons, List.not_mem_nil, or_false] at hpp
      rcases hpp with rfl | rfl | rfl | rfl <;> rw [← hpk]
    rw [hval] at hppos
    exact hppos

theorem toBps_master (w : AllocationPct)
    (hsum : w.usdc + w.btc + w.eth + w.sol = 100) :
    (sumBps (toBpsExact10000 w) = 10000)
    ∧ (∀ (k : AllocKey) (m : ℤ), getPct w k * 100 ≤ (m : ℚ) →
        getBps (toBpsExact10000 w) k ≤ m)
    ∧ (∀ (k : AllocKey) (m : ℤ), ((m : ℚ)) ≤ getPct w k * 100 →
        m ≤ getBps (toBpsExact10000 w) k) := by
  have key := distSort_master
    (fun k => getPct w k * 100 - ((⌊getPct w k * 100⌋ : ℤ) : ℚ))
    ⟨⌊w.usdc * 100⌋, ⌊w.btc * 100⌋, ⌊w.eth * 100⌋, ⌊w.sol * 100⌋⟩
    (10000 - (⌊w.usdc * 100⌋ + ⌊w.btc * 100⌋ + ⌊w.eth * 100⌋ + ⌊w.sol * 100⌋))
    (fun k => sub_nonneg.mpr (Int.floor_le _))
    (fun k => by
      show getPct w k * 100 - ((⌊getPct w k * 100⌋ : ℤ) : ℚ) < 1
      linarith [Int.lt_floor_add_one (getPct w k * 100)])
    (by
      push_cast
      simp only [getPct]
      linarith [hsum])
  have hrfl : toBpsExact10000 w = distLoop
      (([(AllocKey.usdc, (fun k => getPct w k * 100 - ((⌊getPct w k * 100⌋ : ℤ) : ℚ))
            AllocKey.usdc),
         (AllocKey.btc, (fun k => getPct w k * 100 - ((⌊getPct w k * 100⌋ : ℤ) : ℚ))
            AllocKey.btc),
         (AllocKey.eth, (fun k => getPct w k * 100 - ((⌊getPct w k * 100⌋ : ℤ) : ℚ))
            AllocKey.eth),
         (AllocKey.sol, (fun k => getPct w k * 100 - ((⌊getPct w k * 100⌋ : ℤ) : ℚ))
            AllocKey.sol)].mergeSort (fun a b => decide (b.2 ≤ a.2))).map Prod.fst)
      ⟨⌊w.usdc * 100⌋, ⌊w.btc * 100⌋, ⌊w.eth * 100⌋, ⌊w.sol * 100⌋⟩
      (10000 - (⌊w.usdc * 100⌋ + ⌊w.btc * 100⌋ + ⌊w.eth * 100⌋ + ⌊w.sol * 100⌋)).toNat
      0 := rfl
  obtain ⟨hsum', hbound, hpos⟩ := key
  rw [← hrfl] at hsum' hbound hpos
  have hbase : ∀ k : AllocKey,
      getBps ⟨⌊w.usdc * 100⌋, ⌊w.btc * 100⌋, ⌊w.eth * 100⌋, ⌊w.sol * 100⌋⟩ k =
        ⌊getPct w k * 100⌋ := by
    intro k
    cases k <;> rfl
  refine ⟨?_, ?_, ?_⟩
  · rw [hsum']
    unfold sumBps
    ring
  · intro k m hm
    have h1 := (hbound k).1
    have h2 := (hbound k).2
    have h3 := hpos k
    rw [hbase k] at h1 h2 h3
    rcases eq_or_lt_of_le h2 with heq | hlt2
    · have hφ : 0 < getPct w k * 100 - ((⌊getPct w k * 100⌋ : ℤ) : ℚ) := h3 heq
      have hfl : ((⌊getPct w k * 100⌋ : ℤ) : ℚ) < (m : ℚ) := by linarith
      have hflz : ⌊getPct w k * 100⌋ < m := by exact_mod_cast hfl
      omega
    · have hfl : ⌊getPct w k * 100⌋ ≤ m := by
        have := Int.floor_le_floor hm
        rwa [Int.floor_intCast] at this
      omega
  · intro k m hm
    have h1 := (hbound k).1
    rw [hbase k] at h1
    have hfl : m ≤ ⌊getPct w k * 100⌋ := Int.le_floor.mpr hm
    omega

theorem bounds_core (rules : PodRules) (w : AllocationPct) (hok : WeightsOK rules w)
    (fb bb eb sb : ℤ) (hfb : (fb : ℚ) = rules.luloFloorPct * 100)
    (hbb : (bb : ℚ) = rules.btc.max * 100) (heb : (eb : ℚ) = rules.eth.max * 100)
    (hsb : (sb : ℚ) = rules.sol.max * 100) :
    (rules.luloFloorPct * 100 ≤ ((toBpsExact10000 w).usdc : ℚ))
    ∧ (((toBpsExact10000 w).btc : ℚ) ≤ rules.btc.max * 100)
    ∧ (((toBpsExact10000 w).eth : ℚ) ≤ rules.eth.max * 100)
    ∧ (((toBpsExact10000 w).sol : ℚ) ≤ rules.sol.max * 100) := by
  have hmaster := toBps_master w hok.total
  have h100 : (0 : ℚ) ≤ 100 := by norm_num
  refine ⟨?_, ?_, ?_, ?_⟩
  · have h := hmaster.2.2 AllocKey.usdc fb
      (by
        rw [hfb]
        show rules.luloFloorPct * 100 ≤ w.usdc * 100
        exact mul_le_mul_of_nonneg_right hok.floor_le h100)
    have hc : (fb : ℚ) ≤ ((toBpsExact10000 w).usdc : ℚ) := by exact_mod_cast h
    rw [hfb] at hc
    exact hc
  · have h := hmaster.2.1 AllocKey.btc bb
      (by
        rw [hbb]
        show w.btc * 100 ≤ rules.btc.max * 100
        exact mul_le_mul_of_nonneg_right hok.btc_le h100)
    have hc : ((toBpsExact10000 w).btc : ℚ) ≤ (bb : ℚ) := by exact_mod_cast h
    rw [hbb] at hc
    exact hc
  · have h := hmaster.2.1 AllocKey.eth eb
      (by
        rw [heb]
        show w.eth * 100 ≤ rules.eth.max * 100
        exact mul_le_mul_of_nonneg_right hok.eth_le h100)
    have hc : ((toBpsExact10000 w).eth : ℚ) ≤ (eb : ℚ) := by exact_mod_cast h
    rw [heb] at hc
    exact hc
  · have h := hmaster.2.1 AllocKey.sol sb
      (by
        rw [hsb]
        show w.sol * 100 ≤ rules.sol.max * 100
        exact mul_le_mul_of_nonneg_right hok.sol_le h100)
    have hc : ((toBpsExact10000 w).sol : ℚ) ≤ (sb : ℚ) := by exact_mod_cast h
    rw [hsb] at hc
    exact hc

/-- C1: for every tier and every proposed weight input, the basis-point
allocation of `applyPolicyClamp` respects the tier's bound table — stable
basis points at least the floor times 100, each volatile basis-point value
at most its tier maximum times 100 — including after the
floor-and-distribute-remainder conversion. -/
theorem clamp_respects_bounds (input : AgentProposal) :
    ((POD_RULES (applyPolicyClamp input).podTier).luloFloorPct * 100 ≤
      ((applyPolicyClamp input).targetAllocationsBps.usdc : ℚ))
    ∧ (((applyPolicyClamp input).targetAllocationsBps.btc : ℚ) ≤
      (POD_RULES (applyPolicyClamp input).podTier).btc.max * 100)
    ∧ (((applyPolicyClamp input).targetAllocationsBps.eth : ℚ) ≤
      (POD_RULES (applyPolicyClamp input).podTier).eth.max * 100)
    ∧ (((applyPolicyClamp input).targetAllocationsBps.sol : ℚ) ≤
      (POD_RULES (applyPolicyClamp input).podTier).sol.max * 100) := by
  have hbps : (applyPolicyClamp input).targetAllocationsBps =
      toBpsExact10000 (clampWeights (POD_RULES (normalizeTier input.podTier))
        (normalizeTo100 (sanitizeWeight input.weightsUsdc)
          (sanitizeWeight input.weightsBtc) (sanitizeWeight input.weightsEth)
          (sanitizeWeight input.weightsSol))).1 := rfl
  have htier : (applyPolicyClamp input).podTier = normalizeTier input.podTier := rfl
  have hok := clampWeights_ok (POD_RULES (normalizeTier input.podTier))
    (POD_RULES_ok _)
    (normalizeTo100 (sanitizeWeight input.weightsUsdc) (sanitizeWeight input.weightsBtc)
      (sanitizeWeight input.weightsEth) (sanitizeWeight input.weightsSol))
    (normalizeTo100_nonneg _ _ _ _)
  rw [hbps, htier]
  set t := normalizeTier input.podTier with ht
  clear_value t
  cases t with
  | LOW =>
    exact bounds_core _ _ hok 7000 2000 1500 1500 (by norm_num [POD_RULES])
      (by norm_num [POD_RULES]) (by norm_num [POD_RULES]) (by norm_num [POD_RULES])
  | MEDIUM =>
    exact bounds_core _ _ hok 5000 3000 2500 2500 (by norm_num [POD_RULES])
      (by norm_num [POD_RULES]) (by norm_num [POD_RULES]) (by norm_num [POD_RULES])
  | HIGH =>
    exact bounds_core _ _ hok 3000 4000 3000 4000 (by norm_num [POD_RULES])
      (by norm_num [POD_RULES]) (by norm_num [POD_RULES]) (by norm_num [POD_RULES])

/-- C2: for every tier and every weight input, the four basis-point values of
the clamped allocation sum to exactly 10,000. -/
theorem clamp_bps_sum_10000 (input : AgentProposal) :
    (applyPolicyClamp input).targetAllocationsBps.usdc +
      (applyPolicyClamp input).targetAllocationsBps.btc +
      (applyPolicyClamp input).targetAllocationsBps.eth +
      (applyPolicyClamp input).targetAllocationsBps.sol = 10000 := by
  have hbps : (applyPolicyClamp input).targetAllocationsBps =
      toBpsExact10000 (clampWeights (POD_RULES (normalizeTier input.podTier))
        (normalizeTo100 (sanitizeWeight input.weightsUsdc)
          (sanitizeWeight input.weightsBtc) (sanitizeWeight input.weightsEth)
          (sanitizeWeight input.weightsSol))).1 := rfl
  have hok := clampWeights_ok (POD_RULES (normalizeTier input.podTier))
    (POD_RULES_ok _)
    (normalizeTo100 (sanitizeWeight input.weightsUsdc) (sanitizeWeight input.weightsBtc)
      (sanitizeWeight input.weightsEth) (sanitizeWeight input.weightsSol))
    (normalizeTo100_nonneg _ _ _ _)
  have hmaster := toBps_master _ hok.total
  rw [hbps]
  have h := hmaster.1
  unfold sumBps at h
  linarith

/-- C9: the yield allocation in basis points never exceeds the stable
allocation in basis points of the same clamped policy. -/
theorem yield_le_stable (input : AgentProposal) :
    (applyPolicyClamp input).usdcInLuloBps ≤
      (applyPolicyClamp input).targetAllocationsBps.usdc := by
  have h : (applyPolicyClamp input).usdcInLuloBps =
      min ((applyPolicyClamp input).targetAllocationsBps.usdc)
        (max 0 (jsRound ((clampLulo (POD_RULES (normalizeTier input.podTier))
          (clampWeights (POD_RULES (normalizeTier input.podTier))
            (normalizeTo100 (sanitizeWeight input.weightsUsdc)
              (sanitizeWeight input.weightsBtc) (sanitizeWeight input.weightsEth)
              (sanitizeWeight input.weightsSol))).1
          input.usdcInLuloPct
          (clampWeights (POD_RULES (normalizeTier input.podTier))
            (normalizeTo100 (sanitizeWeight input.weightsUsdc)
              (sanitizeWeight input.weightsBtc) (sanitizeWeight input.weightsEth)
              (sanitizeWeight input.weightsSol))).2).1 * 100))) := rfl
  rw [h]
  exact min_le_left _ _

theorem toBps_pure_stable : toBpsExact10000 ⟨100, 0, 0, 0⟩ = ⟨10000, 0, 0, 0⟩ := by
  have h := toBps_master ⟨100, 0, 0, 0⟩ (by norm_num)
  have hb1 := h.2.1 AllocKey.btc 0 (by norm_num [getPct])
  have hb2 := h.2.2 AllocKey.btc 0 (by norm_num [getPct])
  have he1 := h.2.1 AllocKey.eth 0 (by norm_num [getPct])
  have he2 := h.2.2 AllocKey.eth 0 (by norm_num [getPct])
  have hs1 := h.2.1 AllocKey.sol 0 (by norm_num [getPct])
  have hs2 := h.2.2 AllocKey.sol 0 (by norm_num [getPct])
  have hu := h.2.2 AllocKey.usdc 10000 (by norm_num [getPct])
  have hsum := h.1
  unfold sumBps at hsum
  simp only [getBps] at hb1 hb2 he1 he2 hs1 hs2 hu
  have hx : ∀ x : AllocationBps, x.usdc = 10000 → x.btc = 0 → x.eth = 0 → x.sol = 0 →
      x = ⟨10000, 0, 0, 0⟩ := by
    intro x h1 h2 h3 h4
    cases x
    simp_all
  exact hx _ (by omega) (by omega) (by omega) (by omega)

/-- C8: `applyPolicyClamp` is total and clamps malformed input to safe
defaults: the output tier and risk state are the normalized inputs; an
unrecognized tier string falls back to `LOW`, an unrecognized risk string to
`NORMAL`; a degenerate weight vector (non-finite or non-positive sanitized
sum — `NaN`/infinite, negative, zero-sum or missing weights) yields 100%
stable basis points. -/
theorem clamp_total_with_safe_defaults (input : AgentProposal) :
    (applyPolicyClamp input).podTier = normalizeTier input.podTier
    ∧ (applyPolicyClamp input).riskState = normalizeRisk input.riskState
    ∧ (jsToUpper (jsTrim input.podTier) ≠ "LOW" → jsToUpper (jsTrim input.podTier) ≠ "MED" →
        jsToUpper (jsTrim input.podTier) ≠ "MEDIUM" → jsToUpper (jsTrim input.podTier) ≠ "HIGH" →
        (applyPolicyClamp input).podTier = .LOW)
    ∧ ((jsToUpper (jsTrim (input.riskState.getD "")) ≠ "CAUTION") →
        (jsToUpper (jsTrim (input.riskState.getD "")) ≠ "RISK_OFF") →
        (applyPolicyClamp input).riskState = .NORMAL)
    ∧ (DegenerateWeights input →
        (applyPolicyClamp input).targetAllocationsBps = ⟨10000, 0, 0, 0⟩) := by
  have htier : (applyPolicyClamp input).podTier = normalizeTier input.podTier := rfl
  have hrisk : (applyPolicyClamp input).riskState = normalizeRisk input.riskState := rfl
  refine ⟨htier, hrisk, ?_, ?_, ?_⟩
  · intro h1 h2 h3 h4
    rw [htier]
    simp [normalizeTier, h1, h2, h3, h4]
  · intro h1 h2
    rw [hrisk]
    simp [normalizeRisk, h1, h2]
  · intro hdeg
    have hbps : (applyPolicyClamp input).targetAllocationsBps =
        toBpsExact10000 (clampWeights (POD_RULES (normalizeTier input.podTier))
          (normalizeTo100 (sanitizeWeight input.weightsUsdc)
            (sanitizeWeight input.weightsBtc) (sanitizeWeight input.weightsEth)
            (sanitizeWeight input.weightsSol))).1 := rfl
    have hs : JsNum.add (JsNum.add (JsNum.add (sanitizeWeight input.weightsUsdc)
        (sanitizeWeight input.weightsBtc)) (sanitizeWeight input.weightsEth))
        (sanitizeWeight input.weightsSol) = weightSumJs input := rfl
    have hnorm : normalizeTo100 (sanitizeWeight input.weightsUsdc)
        (sanitizeWeight input.weightsBtc) (sanitizeWeight input.weightsEth)
        (sanitizeWeight input.weightsSol) = ⟨100, 0, 0, 0⟩ := by
      unfold normalizeTo100
      rw [hs]
      rcases hsum : weightSumJs input with q | _ | _ | _
      · simp [hdeg q hsum]
      · rfl
      · rfl
      · rfl
    rw [hbps, hnorm]
    set t := normalizeTier input.podTier with ht
    clear_value t
    have hcw : (clampWeights (POD_RULES t) ⟨100, 0, 0, 0⟩).1 = ⟨100, 0, 0, 0⟩ := by
      cases t <;>
        norm_num [clampWeights, boundCrypto, recomputeUsdcFromCrypto,
          enforceUsdcMinimum, clampQ, POD_RULES, max_def]
    rw [hcw]
    exact toBps_pure_stable

/-- Witness for C8: the degenerate demo proposal (unknown tier and risk
strings, `NaN`/negative/missing weights) falls back to the LOW tier, NORMAL
risk and a 100%-stable allocation. -/
theorem clamp_total_with_safe_defaults_witness :
    (applyPolicyClamp demoBadProposal).podTier = PodTier.LOW
    ∧ (applyPolicyClamp demoBadProposal).riskState = RiskState.NORMAL
    ∧ (applyPolicyClamp demoBadProposal).targetAllocationsBps = ⟨10000, 0, 0, 0⟩ := by
  have h := clamp_total_with_safe_defaults demoBadProposal
  refine ⟨?_, ?_, ?_⟩
  · exact h.2.2.1 (by decide) (by decide) (by decide) (by decide)
  · exact h.2.2.2.1 (by decide) (by decide)
  · apply h.2.2.2.2
    intro q hq
    have hnan : weightSumJs demoBadProposal = JsNum.nan := rfl
    rw [hnan] at hq
    exact JsNum.noConfusion hq
